import Mathlib

/-!
Verification of the dotmaps map-synthesis core (the `imageToGrid.ts` module of
`dfosco/dotmaps`: `hash2d`, `pickWaterGradient`, color-space helpers,
`computeDistanceField`, `computeEdgeDistance`, `downsampleToBuffer`,
`imageToGrid`, `fixGridLimits`).

Modelling conventions:
* JS numbers are modelled as exact rationals (`ℚ`); integer-only quantities
  (distances, indices, quantities) as `ℕ`/`ℤ`.
* The TypeScript cell type `string | null` becomes `Option String`
  (`none` covers both `null` and `undefined`).
* The module-level palette configuration (`dotmaps.config.json`, read through
  `config.colors`) is threaded explicitly as a `Config` parameter; JS `Map`
  lookups (last insertion wins) become `List.reverse.find?`.
* JS `Array.prototype.sort` with a numeric comparator is a stable sort; it is
  modelled by a structurally recursive stable insertion sort `sortBy`.
* The BFS work-list loop of `computeDistanceField` is modelled with an explicit
  fuel argument that dominates a strictly decreasing measure of the loop state,
  so the model is total and computable; the fuel is proven large enough as part
  of the distance-field correctness theorem.
-/

namespace Dotmaps

-- Reducibility of the Batteries rational primitives, restored locally so that
-- concrete rational computations can be discharged by `decide`.
attribute [local semireducible] Rat.add Rat.mul Rat.sub Rat.inv

/-- A grid cell: empty (TS `null`/`undefined`) or one palette color hex string. -/
abbrev Cell := Option String

/-- A grid: a list of rows of cells (TS `Cell[][]`). -/
abbrev Grid := List (List Cell)

/-- One entry of the `colors` array of `dotmaps.config.json` (`ConfigColor` in
`config.ts`). -/
structure ConfigColor where
  id : ℕ
  name : String
  hex : String
  quantity : ℕ
deriving DecidableEq

/-- The palette configuration: the ordered `config.colors` list. -/
abbrev Config := List ConfigColor

/-- JS `ToUint32` of an integer: its residue in `[0, 2^32)`. -/
def toUInt32 (z : ℤ) : ℕ := (z % (2 ^ 32 : ℤ)).toNat

/-- From the source (`imageToGrid.ts`):
```
function hash2d(x, y) {
  let h = Math.imul(x, 374761393) + Math.imul(y, 668265263);
  h = Math.imul(h ^ (h >>> 13), 1274126177);
  h = h ^ (h >>> 16);
  return ((h & 0x7fffffff) / 0x7fffffff);
}
```
All the bitwise steps act on 32-bit patterns; `Math.imul` is multiplication
mod `2^32`; `h & 0x7fffffff` takes the low 31 bits; the final division is
exact real division. -/
def hash2d (x y : ℤ) : ℚ :=
  let u0 : ℕ := toUInt32 (x * 374761393 + y * 668265263)
  let a : ℕ := u0 ^^^ (u0 >>> 13)
  let b : ℕ := (a * 1274126177) % 2 ^ 32
  let u3 : ℕ := b ^^^ (b >>> 16)
  ((u3 % 2 ^ 31 : ℕ) : ℚ) / ((0x7fffffff : ℕ) : ℚ)

/-- JS `Math.floor` on an exact rational. -/
def jsFloor (q : ℚ) : ℤ := q.num.fdiv q.den

/-- JS `Math.round` (round half toward positive infinity). -/
def jsRound (q : ℚ) : ℤ := jsFloor (q + 1 / 2)

/-- The gradient-stop index chosen by `pickWaterGradient` (the source computes
this index `gi` and returns `WATER_GRADIENT[gi]`):
```
const tScaled = Math.max(0, Math.min(3, t * 3));
const lower = Math.min(2, Math.floor(tScaled));
const upper = lower + 1;
const frac = tScaled - lower;
const gi = hash2d(x, y) < frac ? upper : lower;
```
-/
def pickIndex (t : ℚ) (x y : ℤ) : ℤ :=
  let tScaled : ℚ := max 0 (min 3 (t * 3))
  let lower : ℤ := min 2 (jsFloor tScaled)
  let upper : ℤ := lower + 1
  let frac : ℚ := tScaled - (lower : ℚ)
  if hash2d x y < frac then upper else lower

/-- `pickWaterGradient(t, x, y)` returns `WATER_GRADIENT[gi]`; the gradient
array is passed explicitly (its entries are `Option String` because the source
builds it from `Map.get` results asserted with `!`). -/
def pickWaterGradient (wg : List Cell) (t : ℚ) (x y : ℤ) : Cell :=
  wg.getD (pickIndex t x y).toNat none

/-- Value of one hexadecimal digit, as used by JS `parseInt(·, 16)`. -/
def hexDigitVal (c : Char) : Option ℕ :=
  if '0' ≤ c ∧ c ≤ '9' then some (c.toNat - '0'.toNat)
  else if 'a' ≤ c ∧ c ≤ 'f' then some (c.toNat - 'a'.toNat + 10)
  else if 'A' ≤ c ∧ c ≤ 'F' then some (c.toNat - 'A'.toNat + 10)
  else none

/-- JS `parseInt(s, 16)` restricted to its defined behaviour on hex strings:
parse the longest prefix of hex digits (the config hexes are all of the form
`#RRGGBB`, so this is the whole string after `#`). -/
def parseHex (s : String) : ℕ :=
  (s.toList.foldl
    (fun st c =>
      match st.2, hexDigitVal c with
      | true, some v => (16 * st.1 + v, true)
      | _, _ => (st.1, false))
    ((0 : ℕ), true)).1

/-- From the source:
```
export function hexToRgb(hex) {
  const n = parseInt(hex.slice(1), 16);
  return [(n >> 16) & 255, (n >> 8) & 255, n & 255];
}
```
-/
def hexToRgb (hex : String) : ℕ × ℕ × ℕ :=
  let n := parseHex (hex.drop 1)
  ((n >>> 16) % 256, (n >>> 8) % 256, n % 256)

/-- From the source: `rgbToHsl(r, g, b)`; r/g/b in `[0,255]`, hue in degrees,
saturation/lightness in `[0,1]`; the degenerate `max == min` case returns
hue 0, saturation 0. -/
def rgbToHsl (r0 g0 b0 : ℚ) : ℚ × ℚ × ℚ :=
  let r := r0 / 255
  let g := g0 / 255
  let b := b0 / 255
  let mx := max r (max g b)
  let mn := min r (min g b)
  let l := (mx + mn) / 2
  if mx = mn then (0, 0, l)
  else
    let d := mx - mn
    let s := if l > 1 / 2 then d / (2 - mx - mn) else d / (mx + mn)
    let h :=
      if mx = r then ((g - b) / d + (if g < b then 6 else 0)) / 6
      else if mx = g then ((b - r) / d + 2) / 6
      else ((r - g) / d + 4) / 6
    (h * 360, s, l)

/-- From the source: `hslDistance` (wrapped hue difference normalized by 180,
squared, weighted by average saturation; plus squared saturation and lightness
differences). -/
def hslDistance (h1 s1 l1 h2 s2 l2 : ℚ) : ℚ :=
  let dh := min |h1 - h2| (360 - |h1 - h2|) / 180
  let ds := s1 - s2
  let dl := l1 - l2
  let avgS := (s1 + s2) / 2
  dh * dh * avgS + ds * ds + dl * dl

/-- The four water-set palette names, in gradient order darkest → lightest
(hard-coded in the source's `WATER_HEXES` / `WATER_GRADIENT`). -/
def waterNames : List String := ["black", "dark blue", "turquoise", "light blue"]

/-- `colorByName.get(n)`: the hex of the last config entry named `n`
(JS `Map` construction keeps the last binding for a duplicated key). -/
def colorByName (cfg : Config) (n : String) : Option String :=
  (cfg.reverse.find? (fun c => c.name = n)).map (·.hex)

/-- `WATER_HEXES`: the set of water hexes, i.e. the name lookups of the four
water names with missing entries dropped (`filter(Boolean)`). -/
def WATER_HEXES (cfg : Config) : List String :=
  (waterNames.map (colorByName cfg)).filterMap id

/-- `WATER_GRADIENT`: the four name lookups in gradient order; the source
asserts them non-null with `!`, which performs no runtime check, so a missing
name yields an `undefined` (`none`) stop. -/
def WATER_GRADIENT (cfg : Config) : List Cell :=
  waterNames.map (colorByName cfg)

/-- `LAND_HEXES`: hexes of all config colors not in the water set. -/
def LAND_HEXES (cfg : Config) : List String :=
  (cfg.filter (fun c => ¬ (WATER_HEXES cfg).contains c.hex)).map (·.hex)

/-- An entry of `LAND_PALETTE`: hex plus precomputed HSL and RGB. -/
structure LandColor where
  hex : String
  h : ℚ
  s : ℚ
  l : ℚ
  r : ℚ
  g : ℚ
  b : ℚ
deriving DecidableEq

/-- `LAND_PALETTE`: `PALETTE_HSL` (HSL of every config color) restricted to
land hexes, with RGB added. -/
def LAND_PALETTE (cfg : Config) : List LandColor :=
  (cfg.filter (fun c => (LAND_HEXES cfg).contains c.hex)).map (fun c =>
    let rgb := hexToRgb c.hex
    let hsl := rgbToHsl rgb.1 rgb.2.1 rgb.2.2
    ⟨c.hex, hsl.1, hsl.2.1, hsl.2.2, rgb.1, rgb.2.1, rgb.2.2⟩)

/-- From the source: `closestLandColor(r, g, b)` — near-achromatic pixels use
normalized RGB Euclidean distance, chromatic pixels use saturation-boosted
hue-primary distance with a penalty against achromatic palette entries; the
running minimum starts at `Infinity` with `bestHex = LAND_PALETTE[0].hex`
(modelled as `Option` since an empty palette would crash the source). -/
def closestLandColor (cfg : Config) (r g b : ℚ) : Option String :=
  let lp := LAND_PALETTE cfg
  let hsl := rgbToHsl r g b
  let h := hsl.1
  let s := hsl.2.1
  let l := hsl.2.2
  (lp.foldl
    (fun best pc =>
      let dist : ℚ :=
        if s < 8 / 100 ∨ (s < 25 / 100 ∧ l > 75 / 100) then
          ((r - pc.r) ^ 2 + (g - pc.g) ^ 2 + (b - pc.b) ^ 2) / (255 * 255 * 3)
        else
          let boostedS := min 1 (s * (25 / 10))
          let dh := min |h - pc.h| (360 - |h - pc.h|) / 180
          let dl := l - pc.l
          let ds := boostedS - pc.s
          let base := dh * dh * 3 + dl * dl * (5 / 10) + ds * ds * (15 / 100)
          if pc.s < 15 / 100 then base + s * s * 8 else base
      match best.1 with
      | none => (some dist, some pc.hex)
      | some bd => if dist < bd then (some dist, some pc.hex) else best)
    ((none : Option ℚ), lp.head?.map (·.hex))).2

/-- From the source: `isWaterPixel(r, g, b)` — very dark pixels, sufficiently
saturated blue/cyan hues (threshold rising with lightness), and desaturated
dark blue-leaning tones are water. -/
def isWaterPixel (r g b : ℚ) : Bool :=
  let hsl := rgbToHsl r g b
  let h := hsl.1
  let s := hsl.2.1
  let l := hsl.2.2
  if l < 15 / 100 then true
  else if 170 ≤ h ∧ h ≤ 260 ∧ s > 15 / 100 + max 0 (l - 1 / 2) * (8 / 10) then true
  else if l < 45 / 100 ∧ s < 2 / 10 ∧ b > r then true
  else false

/-- Stable insertion of `x` into `l`: `x` goes before the first `y` with
`le x y`. -/
def insertSorted (le : α → α → Bool) (x : α) : List α → List α
  | [] => [x]
  | y :: ys => if le x y then x :: y :: ys else y :: insertSorted le x ys

/-- Stable insertion sort. With `le a b` meaning "`a` may come before `b`"
(true on ties) this reproduces JS `Array.prototype.sort` with a numeric
comparator, which is required to be stable. -/
def sortBy (le : α → α → Bool) : List α → List α
  | [] => []
  | x :: xs => insertSorted le x (sortBy le xs)

/-- Deduplication keeping the first occurrence of each element — the key order
of a JS `Map` built by repeated `set` during a scan. -/
def dedupFirstAux (seen : List String) : List String → List String
  | [] => []
  | x :: xs =>
    if seen.contains x then dedupFirstAux seen xs
    else x :: dedupFirstAux (x :: seen) xs

/-- Deduplication keeping first occurrences. -/
def dedupFirst (l : List String) : List String := dedupFirstAux [] l

/-! ### The BFS distance transform

`computeDistanceField` stores distances in a `Float32Array` initialized to
`Infinity`; a cell holds either a finite hop count or the `Infinity` sentinel,
modelled as `Option ℕ` with `none` for `Infinity`. Reading the typed array out
of range yields `undefined`, for which every `<` comparison is false, and
writing out of range is ignored; the model reads with `List.get?` and treats a
failed read as an always-false comparison. -/

/-- Strict comparison on distance values, `none` being `Infinity`. -/
def distLtB : Option ℕ → Option ℕ → Bool
  | none, _ => false
  | some _, none => true
  | some a, some b => a < b

/-- One neighbor relaxation, from the loop body
`if (ni >= 0 && nd < dist[ni]) { dist[ni] = nd; queue.push(ni); }` (a negative
`ni` marks a skipped out-of-grid neighbor). -/
def relaxNbr (nd : Option ℕ) (st : List (Option ℕ) × List ℕ) (ni : ℤ) :
    List (Option ℕ) × List ℕ :=
  if 0 ≤ ni then
    match st.1.get? ni.toNat with
    | some cell =>
      if distLtB nd cell then (st.1.set ni.toNat nd, st.2 ++ [ni.toNat]) else st
    | none => st
  else st

/-- The four candidate neighbor indices of `idx` (up, down, left, right), with
`-1` marking a direction that leaves the grid, exactly as in the source:
```
const cx = idx % w, cy = (idx - cx) / w;
const neighbors = [cy > 0 ? idx - w : -1, cy < h - 1 ? idx + w : -1,
                   cx > 0 ? idx - 1 : -1, cx < w - 1 ? idx + 1 : -1];
```
-/
def neighborIdxs (w h idx : ℕ) : List ℤ :=
  let cx := idx % w
  let cy := (idx - cx) / w
  [if 0 < cy then (idx : ℤ) - w else -1,
   if cy < h - 1 then (idx : ℤ) + w else -1,
   if 0 < cx then (idx : ℤ) - 1 else -1,
   if cx < w - 1 then (idx : ℤ) + 1 else -1]

/-- One iteration of the BFS while-loop: pop `idx`, compute `nd = dist[idx]+1`
and relax the four neighbors, returning the updated distances and the list of
newly pushed indices. -/
def bfsStep (w h : ℕ) (dist : List (Option ℕ)) (idx : ℕ) :
    List (Option ℕ) × List ℕ :=
  let nd : Option ℕ := (dist.getD idx none).map (· + 1)
  (neighborIdxs w h idx).foldl (relaxNbr nd) (dist, [])

/-- The BFS while-loop (`while (head < queue.length)`), with explicit fuel.
Every iteration either only pops (shrinking the queue) or strictly improves at
least one distance cell, so the measure
`#Infinity-cells · bound + Σ finite values + queue length` strictly decreases;
`computeDistanceField` supplies fuel exceeding this measure, and the
distance-field theorems prove the fuel never runs out. -/
def bfsLoop (w h : ℕ) (fuel : ℕ) (dist : List (Option ℕ)) (queue : List ℕ) :
    List (Option ℕ) :=
  match fuel with
  | 0 => dist
  | fuel + 1 =>
    match queue with
    | [] => dist
    | idx :: rest =>
      let s := bfsStep w h dist idx
      bfsLoop w h fuel s.1 (rest ++ s.2)

/-- The fuel supplied to `bfsLoop`: strictly more than the initial value of the
decreasing measure (at start every finite cell is 0 and the queue has at most
`w*h` entries). -/
def bfsFuel (w h : ℕ) : ℕ := w * h * (w * h * (w * h) + 1) + w * h + 1

/-- From the source: `computeDistanceField(mask, w, h, fromTrue)` — multi-source
BFS; every cell whose mask value equals `fromTrue` starts at distance 0 and is
enqueued (in index order), all others start at `Infinity`. -/
def computeDistanceField (mask : List Bool) (w h : ℕ) (fromTrue : Bool) :
    List (Option ℕ) :=
  let isSrc : ℕ → Bool := fun i =>
    match mask.get? i with
    | some b => b == fromTrue
    | none => false
  let dist : List (Option ℕ) :=
    (List.range (w * h)).map (fun i => if isSrc i then some 0 else none)
  let queue : List ℕ := (List.range (w * h)).filter isSrc
  bfsLoop w h (bfsFuel w h) dist queue

/-- From the source: `computeEdgeDistance(w, h)` —
`dist[y*w+x] = Math.min(x, y, w-1-x, h-1-y)` (row-major). -/
def computeEdgeDistance (w h : ℕ) : List ℕ :=
  (List.range h).flatMap (fun y =>
    (List.range w).map (fun x => min (min x y) (min (w - 1 - x) (h - 1 - y))))

/-- The source predicate of `computeDistanceField` (`mask[i] === fromTrue`,
false for an out-of-range read). -/
def isSrc (mask : List Bool) (fromTrue : Bool) (i : ℕ) : Bool :=
  match mask.get? i with
  | some b => b == fromTrue
  | none => false

/-- `|a - b|` on naturals. -/
def natDist (a b : ℕ) : ℕ := (a - b) + (b - a)

/-- The 4-connected hop distance between two cells of a full `w`-column grid
(in row-major indices): the Manhattan distance of their coordinates. -/
def manhattan (w i j : ℕ) : ℕ := natDist (i % w) (j % w) + natDist (i / w) (j / w)

/-- Stated from the spec's words: the minimum number of 4-connected hops from
cell `i` to the nearest source cell, `none` when no source exists. -/
def specMinDist (mask : List Bool) (w h : ℕ) (fromTrue : Bool) (i : ℕ) :
    Option ℕ :=
  (((List.range (w * h)).filter (isSrc mask fromTrue)).map (manhattan w i)).min?

/-- The number of `Infinity` cells of a distance field. -/
def countNone (dist : List (Option ℕ)) : ℕ := dist.countP (fun o => o.isNone)

/-- The BFS queue invariant: the pending entries split into a block at level
`d` followed by a block at level `d + 1`. -/
def TwoLevelQ (dist : List (Option ℕ)) (queue : List ℕ) (d : ℕ) : Prop :=
  ∃ q1 q2, queue = q1 ++ q2 ∧ (∀ i ∈ q1, dist.getD i none = some d) ∧
    ∀ i ∈ q2, dist.getD i none = some (d + 1)

/-- The full BFS loop invariant: field length, queue bounds, the two-level
queue with a matching global value bound, sources pinned at 0, soundness
(every finite label overestimates no source distance), and every finite cell
either has all neighbors relaxed or is still queued. -/
def BfsInv (mask : List Bool) (w h : ℕ) (fromTrue : Bool)
    (dist : List (Option ℕ)) (queue : List ℕ) : Prop :=
  dist.length = w * h ∧
  (∀ p ∈ queue, p < w * h) ∧
  (∃ d, TwoLevelQ dist queue d ∧ ∀ i v, dist.getD i none = some v → v ≤ d + 1) ∧
  (∀ j, j < w * h → isSrc mask fromTrue j = true → dist.getD j none = some 0) ∧
  (∀ i v, dist.getD i none = some v →
    ∃ j, j < w * h ∧ isSrc mask fromTrue j = true ∧ manhattan w i j ≤ v) ∧
  (∀ i v, dist.getD i none = some v → ∀ z ∈ neighborIdxs w h i, 0 ≤ z →
    (∃ u, dist.getD z.toNat none = some u ∧ u ≤ v + 1) ∨ i ∈ queue)

/-- What holds of the field when the BFS queue has drained: length, sources
at 0, soundness, and full stability (each finite cell's neighbors are within
one hop). -/
def BfsFinal (mask : List Bool) (w h : ℕ) (fromTrue : Bool)
    (dist : List (Option ℕ)) : Prop :=
  dist.length = w * h ∧
  (∀ j, j < w * h → isSrc mask fromTrue j = true → dist.getD j none = some 0) ∧
  (∀ i v, dist.getD i none = some v →
    ∃ j, j < w * h ∧ isSrc mask fromTrue j = true ∧ manhattan w i j ≤ v) ∧
  (∀ i v, dist.getD i none = some v → ∀ z ∈ neighborIdxs w h i, 0 ≤ z →
    ∃ u, dist.getD z.toNat none = some u ∧ u ≤ v + 1)

/-! ### Downsampling and synthesis -/

/-- A decoded image: RGBA bytes in row-major order (`ImageData`). -/
structure ImageData where
  width : ℕ
  height : ℕ
  data : List ℕ
deriving DecidableEq

/-- From the source: `downsampleToBuffer` — box-filter the image into one
average RGB triple per grid cell, tile `(gx, gy)` covering source columns
`[⌊gx·imgW/gw⌋, ⌊(gx+1)·imgW/gw⌋)` and rows likewise; an empty tile averages
to 0. Returns the flat `[r, g, b, r, g, b, …]` buffer in row-major cell
order. -/
def downsampleToBuffer (img : ImageData) (gridWidth gridHeight : ℕ) : List ℚ :=
  (List.range gridHeight).flatMap (fun gy =>
    (List.range gridWidth).flatMap (fun gx =>
      let x0 := gx * img.width / gridWidth
      let x1 := (gx + 1) * img.width / gridWidth
      let y0 := gy * img.height / gridHeight
      let y1 := (gy + 1) * img.height / gridHeight
      let pix : List ℕ :=
        (List.range' y0 (y1 - y0)).flatMap (fun y =>
          (List.range' x0 (x1 - x0)).map (fun x => (y * img.width + x) * 4))
      let count := pix.length
      let rSum : ℚ := (pix.map (fun i => ((img.data.getD i 0 : ℕ) : ℚ))).sum
      let gSum : ℚ := (pix.map (fun i => ((img.data.getD (i + 1) 0 : ℕ) : ℚ))).sum
      let bSum : ℚ := (pix.map (fun i => ((img.data.getD (i + 2) 0 : ℕ) : ℚ))).sum
      if 0 < count then [rSum / count, gSum / count, bSum / count]
      else [0, 0, 0]))

/-- The water blend scalar of the synthesis step (and of the water-excess
reassignment in `fixGridLimits`), from the source:
`t = (1 - landNorm) * 0.7 + (1 - edgeNorm) * 0.3`. -/
def waterBlendT (landNorm edgeNorm : ℚ) : ℚ :=
  (1 - landNorm) * (7 / 10) + (1 - edgeNorm) * (3 / 10)

/-- The body of `imageToGrid` on the direct (no `detailRes` reduction) path:
downsample, classify water/land per cell, compute the water→land distance
field and the edge-distance field, normalize by observed maxima clamped to at
least 1, then color water cells from the dithered gradient and land cells by
`closestLandColor`. -/
def imageToGridBase (cfg : Config) (img : ImageData)
    (gridWidth gridHeight : ℕ) : Grid :=
  let buf := downsampleToBuffer img gridWidth gridHeight
  let bufAt : ℕ → ℚ := fun i => buf.getD i 0
  let isWaterL : List Bool :=
    (List.range (gridWidth * gridHeight)).map (fun i =>
      isWaterPixel (bufAt (i * 3)) (bufAt (i * 3 + 1)) (bufAt (i * 3 + 2)))
  let distToLand := computeDistanceField isWaterL gridWidth gridHeight false
  let distToEdge := computeEdgeDistance gridWidth gridHeight
  let maxLandDist : ℕ :=
    (List.range (gridWidth * gridHeight)).foldl
      (fun m i =>
        if isWaterL.getD i false then
          match distToLand.getD i none with
          | some d => if m < d then d else m
          | none => m
        else m) 1
  let maxEdgeDist : ℕ :=
    (List.range (gridWidth * gridHeight)).foldl
      (fun m i =>
        let d := distToEdge.getD i 0
        if m < d then d else m) 1
  (List.range gridHeight).map (fun gy =>
    (List.range gridWidth).map (fun gx =>
      let i := gy * gridWidth + gx
      let r := max 0 (min 255 (bufAt (i * 3)))
      let g := max 0 (min 255 (bufAt (i * 3 + 1)))
      let b := max 0 (min 255 (bufAt (i * 3 + 2)))
      if isWaterL.getD i false then
        let landNorm : ℚ :=
          match distToLand.getD i none with
          | some d => (d : ℚ) / (maxLandDist : ℚ)
          | none => 1
        let edgeNorm : ℚ := (distToEdge.getD i 0 : ℚ) / (maxEdgeDist : ℚ)
        pickWaterGradient (WATER_GRADIENT cfg) (waterBlendT landNorm edgeNorm)
          (gx : ℤ) (gy : ℤ)
      else closestLandColor cfg r g b))

/-- From the source: `imageToGrid(imageData, gridWidth, gridHeight, detailRes)`.
When a truthy `detailRes` is below `max(gridWidth, gridHeight)`, synthesize at
a reduced aspect-preserving size (the source's recursive self-call carries no
`detailRes` and therefore takes the direct path, embedded as
`imageToGridBase`) and upscale nearest-neighbor; else take the direct path. -/
def imageToGrid (cfg : Config) (img : ImageData) (gridWidth gridHeight : ℕ)
    (detailRes : Option ℕ) : Grid :=
  let reduced : Option ℕ :=
    match detailRes with
    | some dr => if dr ≠ 0 ∧ dr < max gridWidth gridHeight then some dr else none
    | none => none
  match reduced with
  | some dr =>
    let aspect : ℚ := (gridWidth : ℚ) / (gridHeight : ℚ)
    let sw : ℕ := if 1 ≤ aspect then dr else max 1 (jsRound ((dr : ℚ) * aspect)).toNat
    let sh : ℕ := if 1 ≤ aspect then max 1 (jsRound ((dr : ℚ) / aspect)).toNat else dr
    let small := imageToGridBase cfg img sw sh
    (List.range gridHeight).map (fun r =>
      let sr := min (r * sh / gridHeight) (sh - 1)
      (List.range gridWidth).map (fun c =>
        let sc := min (c * sw / gridWidth) (sw - 1)
        (small.getD sr []).getD sc none))
  | none => imageToGridBase cfg img gridWidth gridHeight

/-! ### The quantity limiter (`fixGridLimits`) -/

/-- Read a cell (`grid[r][c]`): out-of-range reads give `undefined`/`none`. -/
def getCell (g : Grid) (r c : ℕ) : Cell := (g.getD r []).getD c none

/-- Write a cell (`newGrid[r][c] = v`): out-of-range writes are dropped. -/
def setCell (g : Grid) (r c : ℕ) (v : Cell) : Grid :=
  g.set r ((g.getD r []).set c v)

/-- All `(row, col)` pairs of an `h × w` scan, in row-major order. -/
def allPositions (h w : ℕ) : List (ℕ × ℕ) :=
  (List.range h).flatMap (fun r => (List.range w).map (fun c => (r, c)))

/-- A cell position as collected by `fixGridLimits` (`{row, col, idx}` with
`idx = row * w + col`). -/
structure Posn where
  row : ℕ
  col : ℕ
  idx : ℕ
deriving DecidableEq

/-- `colorPositions.get(hex)`: the row-major list of positions whose cell holds
`hex`. -/
def positionsOf (g : Grid) (h w : ℕ) (hex : String) : List Posn :=
  ((allPositions h w).filter (fun p => getCell g p.1 p.2 == some hex)).map
    (fun p => ⟨p.1, p.2, p.1 * w + p.2⟩)

/-- The key order of `colorPositions`: colors in order of first appearance in
the row-major scan. -/
def colorsPresent (g : Grid) (h w : ℕ) : List String :=
  dedupFirst ((allPositions h w).filterMap (fun p => getCell g p.1 p.2))

/-- Point update of a budget map (`remaining.set(k, v)`). -/
def updR (f : String → ℕ) (k : String) (v : ℕ) : String → ℕ :=
  fun x => if x = k then v else f x

/-- A scored position (`{row, col, idx, priority}`). -/
structure Scored where
  row : ℕ
  col : ℕ
  idx : ℕ
  priority : ℚ
deriving DecidableEq

/-- `remaining.get(ch) ?? 0`: the budget of a candidate cell value (a `get`
with an `undefined` key yields `undefined`, defaulted to 0). -/
def budgetOf (rem : String → ℕ) : Cell → ℕ
  | some c => rem c
  | none => 0

/-- `remaining.set(ch, rem - 1)` for a candidate cell value. -/
def decBudget (rem : String → ℕ) : Cell → String → ℕ
  | some c => updR rem c (rem c - 1)
  | none => rem

/-- The water-excess reassignment loop of `fixGridLimits`: for each excess
position recompute the ideal gradient stop from the blend scalar, try the
ideal stop then the remaining gradient stops in gradient order, skip the color
being limited, take the first candidate with remaining budget and decrement
it; if none has budget fall back to `blackHex` without touching any budget. -/
def waterAssign (wg : List Cell) (blackHex : Option String) (tOf : ℕ → ℚ)
    (hx : String) :
    List Scored → Grid × (String → ℕ) → Grid × (String → ℕ)
  | [], st => st
  | pos :: rest, st =>
    let idealHex := pickWaterGradient wg (tOf pos.idx) (pos.col : ℤ) (pos.row : ℤ)
    let candidates := idealHex :: wg.filter (fun wh => wh ≠ idealHex)
    let pick := candidates.find? (fun ch => ch ≠ some hx ∧ 0 < budgetOf st.2 ch)
    match pick with
    | some ch =>
      waterAssign wg blackHex tOf hx rest
        (setCell st.1 pos.row pos.col ch, decBudget st.2 ch)
    | none =>
      waterAssign wg blackHex tOf hx rest
        (setCell st.1 pos.row pos.col blackHex, st.2)

/-- The land-excess reassignment loop of `fixGridLimits`: assign each excess
position the closest-ranked land color with remaining budget, decrementing it;
when no candidate has budget the loop `break`s, leaving the remaining excess
cells unchanged. -/
def landAssign (ranked : List (String × ℚ)) :
    List Scored → Grid × (String → ℕ) → Grid × (String → ℕ)
  | [], st => st
  | pos :: rest, st =>
    match ranked.find? (fun c => 0 < st.2 c.1) with
    | some c =>
      landAssign ranked rest
        (setCell st.1 pos.row pos.col (some c.1), updR st.2 c.1 (st.2 c.1 - 1))
    | none => st

/-- `limits.get(hex)`: the quantity of the last config entry with that hex. -/
def limitsOf (cfg : Config) : String → Option ℕ := fun hx =>
  (cfg.reverse.find? (fun c => c.hex = hx)).map (·.quantity)

/-- One step of the budget-initialization loop of `fixGridLimits`: record the
remaining budget of a present color and collect it as over-limit when its
usage exceeds its quantity. -/
def initStep (cfg : Config) (grid : Grid) (h w : ℕ)
    (st : (String → ℕ) × List String) (hx : String) :
    (String → ℕ) × List String :=
  let limit := (limitsOf cfg hx).getD 0
  if (positionsOf grid h w hx).length ≤ limit then
    (updR st.1 hx (limit - (positionsOf grid h w hx).length), st.2)
  else (updR st.1 hx 0, st.2 ++ [hx])

/-- The body of the per-color loop of `fixGridLimits`: score the color's
positions (water colors by gradient position with deterministic jitter, land
colors by `hash2d` alone), keep the `limit` highest-priority positions, and
reassign the excess through `waterAssign` or `landAssign`. -/
def processColor (cfg : Config) (grid : Grid) (h w : ℕ)
    (landNormOf edgeNormOf : ℕ → ℚ) (st : Grid × (String → ℕ))
    (hx : String) : Grid × (String → ℕ) :=
  let positions := positionsOf grid h w hx
  let limit := (limitsOf cfg hx).getD 0
  let isWaterColor := (WATER_HEXES cfg).contains hx
  let lightBlueHex := colorByName cfg "light blue"
  let turquoiseHex := colorByName cfg "turquoise"
  let darkBlueHex := colorByName cfg "dark blue"
  let blackHex := colorByName cfg "black"
  let scored : List Scored := positions.map (fun pos =>
    let landNorm := landNormOf pos.idx
    let edgeNorm := edgeNormOf pos.idx
    let jitter := hash2d (pos.row : ℤ) (pos.col : ℤ) * (1 / 10000)
    let priority : ℚ :=
      if isWaterColor then
        if some hx = lightBlueHex then 1 - landNorm + jitter
        else if some hx = turquoiseHex then
          (1 - landNorm) * (85 / 100) + edgeNorm * (15 / 100) + jitter
        else if some hx = darkBlueHex then
          1 - |landNorm - 35 / 100| + jitter
        else landNorm * (7 / 10) + (1 - edgeNorm) * (3 / 10) + jitter
      else hash2d (pos.row : ℤ) (pos.col : ℤ)
    ⟨pos.row, pos.col, pos.idx, priority⟩)
  let sorted := sortBy (fun a b => b.priority ≤ a.priority) scored
  let excess := sorted.drop limit
  if isWaterColor then
    waterAssign (WATER_GRADIENT cfg) blackHex
      (fun i => waterBlendT (landNormOf i) (edgeNormOf i)) hx excess st
  else
    let rgb := hexToRgb hx
    let hsl := rgbToHsl (rgb.1 : ℚ) (rgb.2.1 : ℚ) (rgb.2.2 : ℚ)
    let rankedBase :=
      ((LAND_PALETTE cfg).filter (fun pc => pc.hex ≠ hx)).map (fun pc =>
        (pc.hex, hslDistance hsl.1 hsl.2.1 hsl.2.2 pc.h pc.s pc.l))
    let ranked := sortBy (fun a b => a.2 ≤ b.2) rankedBase
    landAssign ranked excess st

/-- From the source: `fixGridLimits(grid)` — reassign over-limit dots to the
nearest available color respecting map semantics, with priority scoring.
The module-level `config.colors` is the explicit `cfg` parameter. -/
def fixGridLimits (cfg : Config) (grid : Grid) : Grid :=
  let h := grid.length
  let w := (grid.headD []).length
  let total := w * h
  let limits := limitsOf cfg
  let cellIsWater : List Bool :=
    (List.range h).flatMap (fun r =>
      (List.range w).map (fun c =>
        match getCell grid r c with
        | some hx => (WATER_HEXES cfg).contains hx
        | none => false))
  let distToLand := computeDistanceField cellIsWater w h false
  let distToEdge := computeEdgeDistance w h
  let maxLandDist : ℕ :=
    (List.range total).foldl
      (fun m i =>
        if cellIsWater.getD i false then
          match distToLand.getD i none with
          | some d => if m < d then d else m
          | none => m
        else m) 1
  let maxEdgeDist : ℕ :=
    (List.range total).foldl
      (fun m i =>
        let d := distToEdge.getD i 0
        if m < d then d else m) 1
  let landNormOf : ℕ → ℚ := fun i =>
    match distToLand.getD i none with
    | some d => (d : ℚ) / (maxLandDist : ℚ)
    | none => 1
  let edgeNormOf : ℕ → ℚ := fun i => (distToEdge.getD i 0 : ℚ) / (maxEdgeDist : ℚ)
  let colorPos : String → List Posn := fun hx => positionsOf grid h w hx
  let present := colorsPresent grid h w
  let rem0 : String → ℕ := fun hx => (limitsOf cfg hx).getD 0
  let afterInit : (String → ℕ) × List String :=
    present.foldl (initStep cfg grid h w) (rem0, [])
  let remaining1 := afterInit.1
  let overColors := afterInit.2
  if overColors = [] then grid
  else
    let overLe : String → String → Bool := fun a b =>
      let la := (colorPos a).length
      let qa := (limits a).getD 1
      let lb := (colorPos b).length
      let qb := (limits b).getD 1
      if qa = 0 then true else if qb = 0 then false else lb * qa ≤ la * qb
    let overSorted := sortBy overLe overColors
    (overSorted.foldl (processColor cfg grid h w landNormOf edgeNormOf)
      (grid, remaining1)).1

/-! ### Spec-comparison definitions and concrete inputs -/

/-- Stated from the spec's words, for comparison with the source's
`waterBlendT`: the blend scalar the spec claims, with configurable
`coastlineWidth` and `waterDepth` (each 0–100):
`t = (1-landNorm)·(coastlineWidth/100) + (1-edgeNorm)·(1-coastlineWidth/100)
+ (50-waterDepth)/100`. -/
def specBlendT (coastlineWidth waterDepth landNorm edgeNorm : ℚ) : ℚ :=
  (1 - landNorm) * (coastlineWidth / 100) +
    (1 - edgeNorm) * (1 - coastlineWidth / 100) + (50 - waterDepth) / 100

/-- Stated from the spec's words, for comparison with the source's
`pickIndex`: scale `t` into `[0,3]`, `lower = floor(scaled)`,
`upper = min(3, lower+1)`, `frac = scaled - lower`, choose `upper` when
`hash2d(x,y) < frac` else `lower`. -/
def specDitherIndex (t : ℚ) (x y : ℤ) : ℤ :=
  let scaled := t * 3
  let lower := jsFloor scaled
  let upper := min 3 (lower + 1)
  let frac := scaled - (lower : ℚ)
  if hash2d x y < frac then upper else lower

/-- A palette with a single white entry (no water names, one land entry). -/
def cfgOnlyWhite : Config := [⟨1, "white", "#EAECE7", 10⟩]

/-- A palette consisting of exactly the four water colors (no land entries). -/
def cfgOnlyWater : Config :=
  [⟨1, "black", "#000000", 100⟩, ⟨2, "dark blue", "#0000AA", 100⟩,
   ⟨3, "turquoise", "#00CCCC", 100⟩, ⟨4, "light blue", "#66CCFF", 100⟩]

/-- A small well-formed palette: the four water colors plus two land colors
(red and green) with scarce quantities, used as concrete input below. -/
def cfgDemo : Config :=
  [⟨1, "black", "#000000", 100⟩, ⟨2, "dark blue", "#0000AA", 100⟩,
   ⟨3, "turquoise", "#00CCCC", 100⟩, ⟨4, "light blue", "#66CCFF", 100⟩,
   ⟨5, "red", "#CC0000", 1⟩, ⟨6, "green", "#00CC00", 1⟩]

/-- Usage of a color in a grid, counted the way the source counts it: the
number of cells of the `grid.length × grid[0].length` scan holding the
color. -/
def usageOf (g : Grid) (hex : String) : ℕ :=
  (positionsOf g g.length (g.headD []).length hex).length

/-- A 1×4 grid holding four red dots — red exceeds its quantity (1) by 3,
while the only other land color (green) has remaining budget 1. -/
def gridDemo : Grid :=
  [[some "#CC0000", some "#CC0000", some "#CC0000", some "#CC0000"]]

/-- Grid shape (row count and each row's length) preservation, stated for an
arbitrary sequence of `setCell` writers. -/
def SameShape (g1 g2 : Grid) : Prop :=
  g1.length = g2.length ∧ ∀ r, (g1.getD r []).length = (g2.getD r []).length

/-- The total number of non-empty cells of a grid, summed row by row. -/
def nonEmptyCount (g : Grid) : ℕ :=
  (g.map (fun row => (row.filter (fun c => c.isSome)).length)).sum

/-- A cell of `g` is a limiter replacement relative to the original `grid`:
the original held some color and the new value is class-compatible (a
water-gradient stop or the black fallback for water colors, a land-palette
hex for land colors). -/
def CellRepl (cfg : Config) (grid g : Grid) (r c : ℕ) : Prop :=
  ∃ hx, getCell grid r c = some hx ∧
    (((WATER_HEXES cfg).contains hx = true ∧
        (getCell g r c ∈ WATER_GRADIENT cfg ∨
          getCell g r c = colorByName cfg "black")) ∨
      ((WATER_HEXES cfg).contains hx = false ∧
        ∃ s, getCell g r c = some s ∧ s ∈ (LAND_PALETTE cfg).map LandColor.hex))

/-! ### Cell, position and counting lemmas for the limiter -/

theorem setCell_length (g : Grid) (r c : ℕ) (v : Cell) :
    (setCell g r c v).length = g.length := by
  simp [setCell]

/-- Writing never changes another cell. -/
theorem getCell_setCell_ne (g : Grid) (r c : ℕ) (v : Cell) (r' c' : ℕ)
    (h : ¬(r' = r ∧ c' = c)) :
    getCell (setCell g r c v) r' c' = getCell g r' c' := by
  unfold getCell setCell
  by_cases hrow : r' = r
  · subst hrow
    have hc : c' ≠ c := fun hc => h ⟨rfl, hc⟩
    by_cases hr : r' < g.length
    · rw [List.getD_eq_getElem?_getD (g.set r' _), List.getElem?_set_self hr,
        Option.getD_some, List.getD_eq_getElem?_getD,
        List.getElem?_set_ne (Ne.symm hc), ← List.getD_eq_getElem?_getD]
    · rw [List.set_eq_of_length_le (by omega)]
  · rw [List.getD_eq_getElem?_getD (g.set r _), List.getElem?_set_ne (Ne.symm hrow),
      ← List.getD_eq_getElem?_getD]

/-- Writing an in-bounds cell stores the value. -/
theorem getCell_setCell_self (g : Grid) (r c : ℕ) (v : Cell)
    (hr : r < g.length) (hc : c < (g.getD r []).length) :
    getCell (setCell g r c v) r c = v := by
  unfold getCell setCell
  rw [List.getD_eq_getElem?_getD (g.set r _), List.getElem?_set_self hr,
    Option.getD_some, List.getD_eq_getElem?_getD, List.getElem?_set_self hc,
    Option.getD_some]

/-- A populated cell is in bounds. -/
theorem getCell_some_inbounds {g : Grid} {r c : ℕ} {s : String}
    (h : getCell g r c = some s) :
    r < g.length ∧ c < (g.getD r []).length := by
  unfold getCell at h
  constructor
  · by_contra hr
    rw [List.getD_eq_getElem?_getD g, List.getElem?_eq_none (by omega)] at h
    simp at h
  · by_contra hc
    rw [List.getD_eq_getElem?_getD (g.getD r []),
      List.getElem?_eq_none (by omega)] at h
    simp at h

/-- `setCell` preserves every row length. -/
theorem setCell_row_length (g : Grid) (r c : ℕ) (v : Cell) (r' : ℕ) :
    ((setCell g r c v).getD r' []).length = (g.getD r' []).length := by
  unfold setCell
  by_cases hrow : r' = r
  · subst hrow
    by_cases hr : r' < g.length
    · rw [List.getD_eq_getElem?_getD (g.set r' _), List.getElem?_set_self hr,
        Option.getD_some, List.length_set]
    · rw [List.set_eq_of_length_le (by omega)]
  · rw [List.getD_eq_getElem?_getD (g.set r _), List.getElem?_set_ne (Ne.symm hrow),
      ← List.getD_eq_getElem?_getD]

/-- Membership in the row-major scan. -/
theorem mem_allPositions {h w r c : ℕ} :
    (r, c) ∈ allPositions h w ↔ r < h ∧ c < w := by
  simp only [allPositions, List.mem_flatMap, List.mem_map, List.mem_range,
    Prod.mk.injEq]
  constructor
  · rintro ⟨a, ha, x, hx, rfl, rfl⟩
    exact ⟨ha, hx⟩
  · rintro ⟨hr, hc⟩
    exact ⟨r, hr, c, hc, rfl, rfl⟩

/-- The row-major scan has no duplicates. -/
theorem allPositions_nodup (h w : ℕ) : (allPositions h w).Nodup := by
  have : allPositions h w = (List.range h).product (List.range w) := rfl
  rw [this]
  exact (List.nodup_range h).product (List.nodup_range w)

/-- Membership characterization of `positionsOf`. -/
theorem mem_positionsOf {g : Grid} {h w : ℕ} {hex : String} {p : Posn} :
    p ∈ positionsOf g h w hex ↔
      p.row < h ∧ p.col < w ∧ getCell g p.row p.col = some hex ∧
        p.idx = p.row * w + p.col := by
  unfold positionsOf
  simp only [List.mem_map, List.mem_filter]
  constructor
  · rintro ⟨⟨r, c⟩, ⟨hmem, hcell⟩, rfl⟩
    rcases mem_allPositions.mp hmem with ⟨hr, hc⟩
    refine ⟨hr, hc, by simpa using hcell, rfl⟩
  · rintro ⟨hr, hc, hcell, hidx⟩
    refine ⟨(p.row, p.col), ⟨mem_allPositions.mpr ⟨hr, hc⟩, by simpa using hcell⟩, ?_⟩
    cases p
    simp_all

/-- The `(row, col)` pairs of `positionsOf` are duplicate-free. -/
theorem positionsOf_pairs_nodup (g : Grid) (h w : ℕ) (hex : String) :
    ((positionsOf g h w hex).map (fun p => (p.row, p.col))).Nodup := by
  unfold positionsOf
  rw [List.map_map]
  have : ((fun p : Posn => (p.row, p.col)) ∘
      (fun p : ℕ × ℕ => (⟨p.1, p.2, p.1 * w + p.2⟩ : Posn))) = id := by
    funext p
    rfl
  rw [this, List.map_id]
  exact ((allPositions_nodup h w).filter _)

/-- Usage of a color within the `h × w` window of a grid. -/
theorem countIn_def (g : Grid) (h w : ℕ) (hex : String) :
    (positionsOf g h w hex).length =
      (allPositions h w).countP (fun p => getCell g p.1 p.2 == some hex) := by
  unfold positionsOf
  rw [List.length_map, ← List.countP_eq_length_filter]

/-- If two predicates agree away from one element of a duplicate-free list,
their counts differ by at most one. -/
theorem countP_le_succ_of_agree {α : Type} {l : List α} (p q : α → Bool)
    (a : α) (hnd : l.Nodup) (hagree : ∀ x ∈ l, x ≠ a → q x = p x) :
    l.countP q ≤ l.countP p + 1 := by
  induction l with
  | nil => simp
  | cons x xs ih =>
    rw [List.countP_cons, List.countP_cons]
    rcases List.nodup_cons.mp hnd with ⟨hxxs, hnd'⟩
    by_cases hxa : x = a
    · subst hxa
      have heq : xs.countP q = xs.countP p :=
        List.countP_congr (fun y hy => by
          rw [hagree y (List.mem_cons_of_mem _ hy) (fun hya => hxxs (hya ▸ hy))])
      rw [heq]
      cases hq : q x <;> cases hp : p x <;> simp <;> omega
    · have hqp : q x = p x := hagree x (List.mem_cons_self _ _) hxa
      have hxs := ih hnd' (fun y hy hya => hagree y (List.mem_cons_of_mem _ hy) hya)
      rw [hqp]
      omega

/-- If the predicates agree away from `a` and the new predicate rejects `a`,
the count cannot grow. -/
theorem countP_le_of_agree_not {α : Type} {l : List α} (p q : α → Bool)
    (a : α) (hagree : ∀ x ∈ l, x ≠ a → q x = p x) (hqa : q a = false) :
    l.countP q ≤ l.countP p :=
  List.countP_mono_left (fun x hx hqx => by
    by_cases hxa : x = a
    · subst hxa
      rw [hqa] at hqx
      cases hqx
    · rw [← hagree x hx hxa]
      exact hqx)

/-- An out-of-bounds write is dropped entirely. -/
theorem setCell_cases (g : Grid) (r c : ℕ) (v : Cell) :
    setCell g r c v = g ∨ (r < g.length ∧ c < (g.getD r []).length) := by
  by_cases hr : r < g.length
  · by_cases hc : c < (g.getD r []).length
    · exact Or.inr ⟨hr, hc⟩
    · left
      unfold setCell
      rw [List.set_eq_of_length_le (l := g.getD r []) (by omega)]
      apply List.ext_getElem?
      intro n
      by_cases hn : n = r
      · subst hn
        rw [List.getElem?_set_self hr, List.getD_eq_getElem?_getD,
          List.getElem?_eq_getElem hr, Option.getD_some]
      · rw [List.getElem?_set_ne (Ne.symm hn)]
  · left
    unfold setCell
    exact List.set_eq_of_length_le (by omega)

/-- After a write, the target cell holds the value (in bounds) or is
untouched (out of bounds). -/
theorem getCell_setCell (g : Grid) (r c : ℕ) (v : Cell) :
    getCell (setCell g r c v) r c = v ∨ setCell g r c v = g := by
  rcases setCell_cases g r c v with hsame | ⟨hr, hc⟩
  · exact Or.inr hsame
  · exact Or.inl (getCell_setCell_self g r c v hr hc)

/-- Writes cannot increase a color's usage by more than one. -/
theorem countIn_setCell_le (g : Grid) (r c : ℕ) (v : Cell) (h w : ℕ)
    (hex : String) :
    (positionsOf (setCell g r c v) h w hex).length ≤
      (positionsOf g h w hex).length + 1 := by
  rw [countIn_def, countIn_def]
  refine countP_le_succ_of_agree _ _ (r, c) (allPositions_nodup h w) ?_
  intro x _ hxa
  rw [getCell_setCell_ne g r c v x.1 x.2 (fun hcon =>
    hxa (Prod.ext hcon.1 hcon.2))]

/-- Writing a value other than the color never increases its usage. -/
theorem countIn_setCell_ne (g : Grid) (r c : ℕ) (v : Cell) (h w : ℕ)
    (hex : String) (hv : v ≠ some hex) :
    (positionsOf (setCell g r c v) h w hex).length ≤
      (positionsOf g h w hex).length := by
  rcases setCell_cases g r c v with hsame | ⟨hr, hc⟩
  · rw [hsame]
  · rw [countIn_def, countIn_def]
    refine countP_le_of_agree_not _ _ (r, c) ?_ ?_
    · intro x _ hxa
      rw [getCell_setCell_ne g r c v x.1 x.2 (fun hcon =>
        hxa (Prod.ext hcon.1 hcon.2))]
    · simp only [getCell_setCell_self g r c v hr hc]
      exact beq_eq_false_iff_ne.mpr hv

/-! ### Shared helper lemmas -/

/-- `jsFloor` agrees with the mathematical floor. -/
theorem jsFloor_eq (q : ℚ) : jsFloor q = ⌊q⌋ := by
  rw [Rat.floor_def]
  exact Int.fdiv_eq_ediv q.num (by positivity)

/-- The hash denominator is positive. -/
theorem hashDen_pos : (0 : ℚ) < ((0x7fffffff : ℕ) : ℚ) := by norm_num

/-- `hash2d` is nonnegative. -/
theorem hash2d_nonneg (x y : ℤ) : 0 ≤ hash2d x y := by
  unfold hash2d
  positivity

/-- `hash2d` never exceeds 1 (it can attain 1, see the C7 counterexample). -/
theorem hash2d_le_one (x y : ℤ) : hash2d x y ≤ 1 := by
  unfold hash2d
  rw [div_le_one hashDen_pos]
  have h : ∀ n : ℕ, n % 2 ^ 31 ≤ 0x7fffffff := fun n =>
    Nat.lt_succ_iff.mp (Nat.mod_lt n (by norm_num))
  exact_mod_cast h _

/-! ### Claim C2 -/


/-- C2: the spec and claim say `imageToGrid` accepts `coastlineWidth` and
`waterDepth` render options modulating the water blend scalar. The source's
`imageToGrid` takes no options: its blend scalar `waterBlendT` is hard-coded
to weight `0.7` and zero bias. This theorem records the divergence: the
hard-coded blend agrees with the claimed formula exactly at the defaults
`(coastlineWidth, waterDepth) = (70, 50)`, and at `coastlineWidth = 0`
(water cell with `landNorm = 0`, `edgeNorm = 1`) the claimed formula yields
`0` while the code computes `7/10`. The claim is recorded as a code bug: the
repository's `App.tsx` passes `renderOptions` into `imageToGrid` and the
README documents the options, but the `imageToGrid` in the source ignores
them. -/
theorem claim_C2_blend_options_ignored :
    (∀ landNorm edgeNorm : ℚ,
      specBlendT 70 50 landNorm edgeNorm = waterBlendT landNorm edgeNorm) ∧
    waterBlendT 0 1 = 7 / 10 ∧ specBlendT 0 50 0 1 = 0 ∧
    waterBlendT 0 1 ≠ specBlendT 0 50 0 1 := by
  refine ⟨fun l e => ?_, by norm_num [waterBlendT], by norm_num [specBlendT],
    by norm_num [waterBlendT, specBlendT]⟩
  unfold specBlendT waterBlendT
  ring

/-! ### Claim C7 -/

/-- C7 counterexample: `hash2d` can return exactly 1, contradicting the
claimed half-open range `[0,1)`. The final 31-bit value `h & 0x7fffffff` is
divided by `0x7fffffff` itself, so any input whose mixed hash has its low 31
bits all set maps to exactly 1; `(x, y) = (1034621878, 0)` is such an input
(obtained by inverting the bijective mixing steps). -/
theorem claim_C7_counterexample : hash2d 1034621878 0 = 1 := by decide

/-- C7 (amended): `hash2d` is a pure function of its two integer arguments
(determinism is definitional in the embedding), and its value always lies in
the closed interval `[0, 1]`; the endpoint 1 is attained, so `[0,1)` in the
claim must be weakened to `[0,1]`. -/
theorem claim_C7_range (x y : ℤ) : 0 ≤ hash2d x y ∧ hash2d x y ≤ 1 :=
  ⟨hash2d_nonneg x y, hash2d_le_one x y⟩

/-! ### Claim C6 -/


/-- C6 counterexample: at `t = 1` and the coordinate where `hash2d` attains
exactly 1, the code's clamped rule (`lower = min(2, floor)`, `frac = 1`,
`hash < 1` false) picks stop 2, while the spec's rule (`lower = 3`,
`frac = 0`) picks stop 3. -/
theorem claim_C6_counterexample :
    pickIndex 1 1034621878 0 = 2 ∧ specDitherIndex 1 1034621878 0 = 3 ∧
    pickIndex 1 1034621878 0 ≠ specDitherIndex 1 1034621878 0 := by decide

/-- C6 (amended): for every `t ∈ [0,1]`, the code's selection agrees with the
spec's dithering rule except in the single razor case `t = 1` together with
`hash2d(x,y) = 1` (possible, see C7): whenever `t < 1` or `hash2d(x,y) < 1`
the two rules pick the same stop. -/
theorem claim_C6_dither_agrees (t : ℚ) (x y : ℤ) (h0 : 0 ≤ t) (h1 : t ≤ 1)
    (hside : t < 1 ∨ hash2d x y < 1) :
    pickIndex t x y = specDitherIndex t x y := by
  have h30 : (0 : ℚ) ≤ t * 3 := by nlinarith
  have h33 : t * 3 ≤ 3 := by nlinarith
  have hclamp : max 0 (min 3 (t * 3)) = t * 3 := by
    rw [min_eq_right h33, max_eq_right h30]
  simp only [pickIndex, specDitherIndex, hclamp]
  rcases lt_or_eq_of_le h1 with hlt | heq
  · -- t < 1: the clamp in the code is inactive and both rules coincide.
    have hflt : jsFloor (t * 3) < 3 := by
      rw [jsFloor_eq]
      exact Int.floor_lt.mpr (by push_cast; nlinarith)
    have hfge : 0 ≤ jsFloor (t * 3) := by
      rw [jsFloor_eq]
      exact Int.floor_nonneg.mpr h30
    rw [min_eq_right (show jsFloor (t * 3) ≤ 2 by omega),
      min_eq_right (show jsFloor (t * 3) + 1 ≤ 3 by omega)]
  · -- t = 1: both rules yield stop 3 because hash2d < 1.
    have hh : hash2d x y < 1 := by
      rcases hside with hc | hc
      · exact absurd hc (by rw [heq]; exact lt_irrefl 1)
      · exact hc
    subst heq
    have hf3 : jsFloor ((1 : ℚ) * 3) = 3 := by
      rw [jsFloor_eq]; norm_num
    rw [hf3, show min (2 : ℤ) 3 = 2 by decide,
      show min (3 : ℤ) (3 + 1) = 3 by decide]
    have h0' := hash2d_nonneg x y
    have hc1 : hash2d x y < (1 : ℚ) * 3 - ((2 : ℤ) : ℚ) := by push_cast; linarith
    have hc2 : ¬ hash2d x y < (1 : ℚ) * 3 - ((3 : ℤ) : ℚ) := by
      push_cast; linarith
    rw [if_pos hc1, if_neg hc2]
    decide

/-- C6 witness: the amended theorem applied at `t = 1/2`, `(x,y) = (0,0)`. -/
theorem claim_C6_dither_agrees_witness :
    pickIndex (1 / 2) 0 0 = specDitherIndex (1 / 2) 0 0 :=
  claim_C6_dither_agrees (1 / 2) 0 0 (by norm_num) (by norm_num)
    (Or.inl (by norm_num))

/-! ### Claim C8 -/

/-- A list that contains a duplicate-free list as a subset is at least as
long. -/
theorem nodup_subset_length_le {α : Type} [DecidableEq α] {l₁ l₂ : List α}
    (h : l₁.Nodup) (hs : l₁ ⊆ l₂) : l₁.length ≤ l₂.length := by
  classical
  calc l₁.length = l₁.toFinset.card := (List.toFinset_card_of_nodup h).symm
    _ ≤ l₂.toFinset.card := Finset.card_le_card (by
        intro a ha
        simp only [List.mem_toFinset] at *
        exact hs ha)
    _ ≤ l₂.length := l₂.toFinset_card_le

/-- A successful name lookup comes from a config entry with that name. -/
theorem colorByName_some_mem {cfg : Config} {n : String}
    (hn : colorByName cfg n ≠ none) : ∃ e ∈ cfg, e.name = n := by
  unfold colorByName at hn
  cases hfind : cfg.reverse.find? (fun c => c.name = n) with
  | none => simp [hfind] at hn
  | some e =>
    refine ⟨e, List.mem_reverse.mp (List.mem_of_find?_eq_some hfind), ?_⟩
    simpa using List.find?_some hfind



/-- C8 counterexample: the claim says a palette with fewer than 4 water-set
entries (or no land entries) is rejected at construction with an error. The
source performs no check at all: the non-null assertions (`!`) check nothing
at runtime, so for a palette with no water entries the gradient is silently
built with four `undefined` stops, and for an all-water palette the land
palette is silently empty — no error in either case. -/
theorem claim_C8_counterexample :
    WATER_GRADIENT cfgOnlyWhite = [none, none, none, none] ∧
    LAND_PALETTE cfgOnlyWater = [] := by decide

/-- C8 (amended): the core performs no construction-time validation. A palette
with fewer than 4 water-set entries yields a `WATER_GRADIENT` containing
`undefined` (`none`) stops rather than an error, and a palette with zero
land-set entries yields an empty `LAND_PALETTE` rather than an error. -/
theorem claim_C8_silent_construction (cfg : Config)
    (h4 : (cfg.filter (fun c => waterNames.contains c.name)).length < 4) :
    none ∈ WATER_GRADIENT cfg ∧
      (LAND_HEXES cfg = [] → LAND_PALETTE cfg = []) := by
  constructor
  · by_contra hmem
    have hgrad : ∀ n ∈ waterNames, colorByName cfg n ≠ none := by
      intro n hn hnone
      exact hmem (by
        unfold WATER_GRADIENT
        exact hnone ▸ List.mem_map_of_mem (colorByName cfg) hn)
    obtain ⟨e1, he1, hn1⟩ := colorByName_some_mem (hgrad "black" (by decide))
    obtain ⟨e2, he2, hn2⟩ := colorByName_some_mem (hgrad "dark blue" (by decide))
    obtain ⟨e3, he3, hn3⟩ := colorByName_some_mem (hgrad "turquoise" (by decide))
    obtain ⟨e4, he4, hn4⟩ := colorByName_some_mem (hgrad "light blue" (by decide))
    have hdiff : ∀ a b : ConfigColor, a.name ≠ b.name → a ≠ b := by
      intro a b hne heq
      exact hne (heq ▸ rfl)
    have h12 : e1 ≠ e2 := hdiff _ _ (by rw [hn1, hn2]; decide)
    have h13 : e1 ≠ e3 := hdiff _ _ (by rw [hn1, hn3]; decide)
    have h14 : e1 ≠ e4 := hdiff _ _ (by rw [hn1, hn4]; decide)
    have h23 : e2 ≠ e3 := hdiff _ _ (by rw [hn2, hn3]; decide)
    have h24 : e2 ≠ e4 := hdiff _ _ (by rw [hn2, hn4]; decide)
    have h34 : e3 ≠ e4 := hdiff _ _ (by rw [hn3, hn4]; decide)
    have hnodup : ([e1, e2, e3, e4] : List ConfigColor).Nodup := by
      simp [List.nodup_cons, List.mem_cons, h12, h13, h14, h23, h24, h34]
    have hsub : ([e1, e2, e3, e4] : List ConfigColor) ⊆
        cfg.filter (fun c => waterNames.contains c.name) := by
      intro a ha
      simp only [List.mem_cons, List.mem_singleton, List.not_mem_nil,
        or_false] at ha
      rcases ha with rfl | rfl | rfl | rfl
      · exact List.mem_filter.mpr ⟨he1, by rw [hn1]; decide⟩
      · exact List.mem_filter.mpr ⟨he2, by rw [hn2]; decide⟩
      · exact List.mem_filter.mpr ⟨he3, by rw [hn3]; decide⟩
      · exact List.mem_filter.mpr ⟨he4, by rw [hn4]; decide⟩
    have := nodup_subset_length_le hnodup hsub
    simp only [List.length_cons, List.length_nil] at this
    omega
  · intro hLH
    unfold LAND_PALETTE
    rw [hLH]
    simp

/-- C8 witness: the amended theorem applied to the single-white palette. -/
theorem claim_C8_silent_construction_witness :
    none ∈ WATER_GRADIENT cfgOnlyWhite ∧
      (LAND_HEXES cfgOnlyWhite = [] → LAND_PALETTE cfgOnlyWhite = []) :=
  claim_C8_silent_construction cfgOnlyWhite (by decide)

/-! ### Claim C5 -/

/-- The direct synthesis path produces exactly `H` rows of `W` cells. -/
theorem imageToGridBase_length (cfg : Config) (img : ImageData) (W H : ℕ) :
    (imageToGridBase cfg img W H).length = H ∧
      ∀ row ∈ imageToGridBase cfg img W H, row.length = W := by
  constructor
  · simp [imageToGridBase]
  · intro row hrow
    simp only [imageToGridBase, List.mem_map] at hrow
    obtain ⟨gy, _, rfl⟩ := hrow
    simp

/-- C5: for positive grid dimensions and any `detailRes` (absent, or positive
and at most `max W H` — the hypotheses mirror the claim, though the dimension
property holds for every argument), `imageToGrid` returns exactly `H` rows of
exactly `W` cells, on both the direct and the reduce-then-upscale path. -/
theorem claim_C5_dimensions (cfg : Config) (img : ImageData) (W H : ℕ)
    (dr : Option ℕ) (hW : 0 < W) (hH : 0 < H)
    (hdr : ∀ d, dr = some d → 0 < d ∧ d ≤ max W H) :
    (imageToGrid cfg img W H dr).length = H ∧
      ∀ row ∈ imageToGrid cfg img W H dr, row.length = W := by
  unfold imageToGrid
  cases dr with
  | none => exact imageToGridBase_length cfg img W H
  | some d =>
    simp only []
    split
    · constructor
      · simp
      · intro row hrow
        simp only [List.mem_map] at hrow
        obtain ⟨r, _, rfl⟩ := hrow
        simp
    · exact imageToGridBase_length cfg img W H

/-- C5 witness: the theorem applied to a 1×1 red image, `W = H = 2`, no
`detailRes`. -/
theorem claim_C5_dimensions_witness :
    (imageToGrid [] ⟨1, 1, [255, 0, 0, 255]⟩ 2 2 none).length = 2 ∧
      ∀ row ∈ imageToGrid [] ⟨1, 1, [255, 0, 0, 255]⟩ 2 2 none,
        row.length = 2 :=
  claim_C5_dimensions [] ⟨1, 1, [255, 0, 0, 255]⟩ 2 2 none (by decide)
    (by decide) (fun d h => nomatch h)

/-! ### Claim C10 -/

/-- Folding a preserved predicate through `List.foldl`. -/
theorem foldl_preserve {α β : Type} (f : α → β → α) (P : α → Prop)
    (hf : ∀ a b, P a → P (f a b)) :
    ∀ (l : List β) (a : α), P a → P (l.foldl f a) := by
  intro l
  induction l with
  | nil => exact fun a h => h
  | cons x xs ih => exact fun a h => ih _ (hf a x h)

/-- The water gradient always has exactly 4 stops. -/
theorem WATER_GRADIENT_length (cfg : Config) : (WATER_GRADIENT cfg).length = 4 := by
  simp [WATER_GRADIENT, waterNames]

/-- The gradient index of the dithered pick lies in `[0, 3]`. -/
theorem pickIndex_bounds (t : ℚ) (x y : ℤ) :
    0 ≤ pickIndex t x y ∧ pickIndex t x y ≤ 3 := by
  simp only [pickIndex]
  have ht0 : (0 : ℚ) ≤ max 0 (min 3 (t * 3)) := le_max_left 0 _
  have hf0 : 0 ≤ jsFloor (max 0 (min 3 (t * 3))) := by
    rw [jsFloor_eq]
    exact Int.floor_nonneg.mpr ht0
  constructor
  · split
    · omega
    · omega
  · split
    · have : min 2 (jsFloor (max 0 (min 3 (t * 3)))) ≤ 2 := min_le_left _ _
      omega
    · have : min 2 (jsFloor (max 0 (min 3 (t * 3)))) ≤ 2 := min_le_left _ _
      omega

/-- The dithered gradient pick is an element of the gradient list. -/
theorem pickWaterGradient_mem (cfg : Config) (t : ℚ) (x y : ℤ) :
    pickWaterGradient (WATER_GRADIENT cfg) t x y ∈ WATER_GRADIENT cfg := by
  unfold pickWaterGradient
  have hb := pickIndex_bounds t x y
  have hlt : (pickIndex t x y).toNat < (WATER_GRADIENT cfg).length := by
    rw [WATER_GRADIENT_length]
    omega
  rw [List.getD_eq_getElem _ _ hlt]
  exact List.getElem_mem hlt

/-- `closestLandColor` returns a color whenever the land palette is
nonempty (the fold's accumulator never loses its `some`). -/
theorem closestLandColor_isSome (cfg : Config) (r g b : ℚ)
    (h : LAND_PALETTE cfg ≠ []) : (closestLandColor cfg r g b).isSome := by
  unfold closestLandColor
  refine foldl_preserve _
    (fun st : Option ℚ × Option String => st.2.isSome) ?_ _ _ ?_
  · intro a pc ha
    obtain ⟨ad, ah⟩ := a
    cases ad with
    | none => simp
    | some bd =>
      dsimp only
      rw [apply_ite (fun st : Option ℚ × Option String => st.2.isSome)]
      simp [ha]
  · cases lp : LAND_PALETTE cfg with
    | nil => exact absurd lp h
    | cons hd tl => simp

/-- Direct-path cells are always populated (given a fully-resolved water
gradient and a nonempty land palette). -/
theorem imageToGridBase_cells_isSome (cfg : Config) (img : ImageData)
    (W H : ℕ) (hwg : ∀ c ∈ WATER_GRADIENT cfg, c.isSome)
    (hlp : LAND_PALETTE cfg ≠ []) :
    ∀ row ∈ imageToGridBase cfg img W H, ∀ cell ∈ row, cell.isSome := by
  intro row hrow cell hcell
  simp only [imageToGridBase, List.mem_map] at hrow
  obtain ⟨gy, _, rfl⟩ := hrow
  simp only [List.mem_map] at hcell
  obtain ⟨gx, _, rfl⟩ := hcell
  split
  · exact hwg _ (pickWaterGradient_mem cfg _ _ _)
  · exact closestLandColor_isSome cfg _ _ _ hlp

/-- C10: every cell of `imageToGrid` is non-empty: water cells receive a
gradient stop and land cells a land-palette color; the upscale path copies
cells of the reduced grid. Hypotheses: the four water-gradient lookups
resolve and the land palette is nonempty (the spec's input contract for the
palette configuration); grid dimensions are positive. -/
theorem claim_C10_no_empty_cells (cfg : Config) (img : ImageData)
    (W H : ℕ) (dr : Option ℕ) (hW : 0 < W) (hH : 0 < H)
    (hwg : ∀ c ∈ WATER_GRADIENT cfg, c.isSome) (hlp : LAND_PALETTE cfg ≠ []) :
    ∀ row ∈ imageToGrid cfg img W H dr, ∀ cell ∈ row, cell.isSome := by
  unfold imageToGrid
  cases dr with
  | none => exact imageToGridBase_cells_isSome cfg img W H hwg hlp
  | some d =>
    simp only []
    by_cases hcond : d ≠ 0 ∧ d < max W H
    · rw [if_pos hcond]
      intro row hrow cell hcell
      simp only [List.mem_map] at hrow
      obtain ⟨r, _, rfl⟩ := hrow
      simp only [List.mem_map] at hcell
      obtain ⟨c, _, rfl⟩ := hcell
      obtain ⟨hd0, hdlt⟩ := hcond
      -- the reduced dimensions are positive
      have hsw : 0 < (if 1 ≤ ((W : ℚ) / (H : ℚ)) then d
          else max 1 (jsRound ((d : ℚ) * ((W : ℚ) / (H : ℚ)))).toNat) := by
        split
        · omega
        · omega
      have hsh : 0 < (if 1 ≤ ((W : ℚ) / (H : ℚ))
          then max 1 (jsRound ((d : ℚ) / ((W : ℚ) / (H : ℚ)))).toNat
          else d) := by
        split
        · omega
        · omega
      set sw := (if 1 ≤ ((W : ℚ) / (H : ℚ)) then d
          else max 1 (jsRound ((d : ℚ) * ((W : ℚ) / (H : ℚ)))).toNat) with hswdef
      set sh := (if 1 ≤ ((W : ℚ) / (H : ℚ))
          then max 1 (jsRound ((d : ℚ) / ((W : ℚ) / (H : ℚ)))).toNat
          else d) with hshdef
      have hlen := imageToGridBase_length cfg img sw sh
      have hsr : min (r * sh / H) (sh - 1) < (imageToGridBase cfg img sw sh).length := by
        rw [hlen.1]
        omega
      rw [List.getD_eq_getElem _ _ hsr]
      have hrowmem := List.getElem_mem hsr
      have hrl : (imageToGridBase cfg img sw sh)[min (r * sh / H) (sh - 1)].length = sw :=
        hlen.2 _ hrowmem
      have hsc : min (c * sw / W) (sw - 1) <
          (imageToGridBase cfg img sw sh)[min (r * sh / H) (sh - 1)].length := by
        rw [hrl]
        omega
      rw [List.getD_eq_getElem _ _ hsc]
      exact imageToGridBase_cells_isSome cfg img sw sh hwg hlp _ hrowmem _
        (List.getElem_mem hsc)
    · rw [if_neg hcond]
      exact imageToGridBase_cells_isSome cfg img W H hwg hlp


/-- C10 witness: the theorem applied to a 1×1 red image on a 1×1 grid with
the demo palette. -/
theorem claim_C10_no_empty_cells_witness :
    ((imageToGrid cfgDemo ⟨1, 1, [255, 0, 0, 255]⟩ 1 1 none).all
      (fun row => row.all (fun cell => cell.isSome))) = true := by
  have hmain := claim_C10_no_empty_cells cfgDemo ⟨1, 1, [255, 0, 0, 255]⟩ 1 1
    none (by decide) (by decide) (by decide) (by decide)
  rw [List.all_eq_true]
  intro row hrow
  rw [List.all_eq_true]
  intro cell hcell
  exact hmain row hrow cell hcell

/-! ### Claim C1 -/



/-- C1 counterexample: the claim promises `usage ≤ quantity` for every color
with at least one feasible reassignment target of nonzero remaining budget —
explicitly including land colors whose excess exceeds the total remaining
budget of the other land colors. In `gridDemo` red (quantity 1, usage 4) has
the feasible target green with nonzero remaining budget (quantity 1, usage 0),
so the claim requires red to end at usage ≤ 1; but the land reassignment loop
`break`s as soon as budgets run out, so exactly one excess cell is recolored
green and red ends at usage 3 > 1. -/
theorem claim_C1_counterexample :
    fixGridLimits cfgDemo gridDemo =
      [[some "#CC0000", some "#CC0000", some "#CC0000", some "#00CC00"]] ∧
    usageOf (fixGridLimits cfgDemo gridDemo) "#CC0000" = 3 ∧
    ((1 : ℕ) < 3) ∧
    (cfgDemo.reverse.find? (fun c => c.hex = "#00CC00")).map (·.quantity) =
      some 1 ∧
    usageOf gridDemo "#00CC00" = 0 ∧
    usageOf gridDemo "#CC0000" = 4 ∧
    (cfgDemo.reverse.find? (fun c => c.hex = "#CC0000")).map (·.quantity) =
      some 1 := by decide

/-! ### Reassignment loop lemmas (toward C1, C3, C9) -/

/-- The dithered pick from a 4-stop gradient list is one of its stops. -/
theorem pickWaterGradient_mem_of_len (wg : List Cell) (hwg : wg.length = 4)
    (t : ℚ) (x y : ℤ) : pickWaterGradient wg t x y ∈ wg := by
  unfold pickWaterGradient
  have hb := pickIndex_bounds t x y
  have hlt : (pickIndex t x y).toNat < wg.length := by omega
  rw [List.getD_eq_getElem _ _ hlt]
  exact List.getElem_mem hlt

/-- A candidate chosen by the water reassignment search is a gradient stop
distinct from the limited color with positive remaining budget. -/
theorem waterPick_facts {wg : List Cell} (hwg : wg.length = 4)
    {ideal : Cell} (hideal : ideal ∈ wg) {hx : String} {rem : String → ℕ}
    {ch : Cell}
    (hfind : (ideal :: wg.filter (fun wh => wh ≠ ideal)).find?
      (fun ch => ch ≠ some hx ∧ 0 < budgetOf rem ch) = some ch) :
    ch ∈ wg ∧ ch ≠ some hx ∧
      ∃ c0, ch = some c0 ∧ 0 < rem c0 := by
  have hmem := List.mem_of_find?_eq_some hfind
  have hpred := List.find?_some hfind
  simp only [decide_eq_true_eq] at hpred
  obtain ⟨hne, hpos⟩ := hpred
  have hchwg : ch ∈ wg := by
    rcases List.mem_cons.mp hmem with rfl | hmem'
    · exact hideal
    · exact List.mem_of_mem_filter hmem'
  refine ⟨hchwg, hne, ?_⟩
  cases ch with
  | none => simp [budgetOf] at hpos
  | some c0 => exact ⟨c0, rfl, hpos⟩

/-- Cells after the water reassignment loop: each is unchanged, or sits at one
of the processed positions and holds a gradient stop or the black fallback. -/
theorem waterAssign_cells (wg : List Cell) (blk : Option String) (tOf : ℕ → ℚ)
    (hx : String) (hwg : wg.length = 4) :
    ∀ (l : List Scored) (st : Grid × (String → ℕ)) (r c : ℕ),
      getCell (waterAssign wg blk tOf hx l st).1 r c = getCell st.1 r c ∨
        ((∃ p ∈ l, p.row = r ∧ p.col = c) ∧
          (getCell (waterAssign wg blk tOf hx l st).1 r c ∈ wg ∨
            getCell (waterAssign wg blk tOf hx l st).1 r c = blk)) := by
  intro l
  induction l with
  | nil => intro st r c; left; rfl
  | cons pos rest ih =>
    intro st r c
    rw [waterAssign]
    split
    · next ch hfind =>
      have hfacts := waterPick_facts hwg
        (pickWaterGradient_mem_of_len wg hwg (tOf pos.idx) pos.col pos.row)
        hfind
      rcases ih (setCell st.1 pos.row pos.col ch, decBudget st.2 ch) r c with
        hsame | ⟨⟨p, hp, hrc⟩, hval⟩
      · rw [hsame]
        by_cases hpos : r = pos.row ∧ c = pos.col
        · rcases getCell_setCell st.1 pos.row pos.col ch with hv | hnoop
          · right
            refine ⟨⟨pos, List.mem_cons_self _ _, hpos.1.symm, hpos.2.symm⟩, ?_⟩
            rw [hpos.1, hpos.2]
            exact Or.inl (by rw [hv]; exact hfacts.1)
          · left
            rw [hpos.1, hpos.2, hnoop]
        · left
          exact getCell_setCell_ne st.1 pos.row pos.col ch r c
            (fun hcon => hpos ⟨hcon.1, hcon.2⟩)
      · exact Or.inr ⟨⟨p, List.mem_cons_of_mem _ hp, hrc⟩, hval⟩
    · rcases ih (setCell st.1 pos.row pos.col blk, st.2) r c with
        hsame | ⟨⟨p, hp, hrc⟩, hval⟩
      · rw [hsame]
        by_cases hpos : r = pos.row ∧ c = pos.col
        · rcases getCell_setCell st.1 pos.row pos.col blk with hv | hnoop
          · right
            refine ⟨⟨pos, List.mem_cons_self _ _, hpos.1.symm, hpos.2.symm⟩, ?_⟩
            rw [hpos.1, hpos.2]
            exact Or.inr hv
          · left
            rw [hpos.1, hpos.2, hnoop]
        · left
          exact getCell_setCell_ne st.1 pos.row pos.col blk r c
            (fun hcon => hpos ⟨hcon.1, hcon.2⟩)
      · exact Or.inr ⟨⟨p, List.mem_cons_of_mem _ hp, hrc⟩, hval⟩

/-- Out-of-bounds writes are dropped and such cells read as empty. -/
theorem setCell_cases_strong (g : Grid) (r c : ℕ) (v : Cell) :
    (setCell g r c v = g ∧ getCell g r c = none) ∨
      (r < g.length ∧ c < (g.getD r []).length) := by
  by_cases hr : r < g.length
  · by_cases hc : c < (g.getD r []).length
    · exact Or.inr ⟨hr, hc⟩
    · refine Or.inl ⟨?_, ?_⟩
      · rcases setCell_cases g r c v with h | ⟨_, hcc⟩
        · exact h
        · omega
      · unfold getCell
        rw [List.getD_eq_getElem?_getD (g.getD r []),
          List.getElem?_eq_none (by omega)]
        rfl
  · refine Or.inl ⟨?_, ?_⟩
    · rcases setCell_cases g r c v with h | ⟨hrr, _⟩
      · exact h
      · omega
    · unfold getCell
      rw [List.getD_eq_getElem?_getD g, List.getElem?_eq_none (by omega)]
      rfl

/-- After a write, the target cell holds the value, or the write was dropped
and the cell reads empty. -/
theorem getCell_setCell_strong (g : Grid) (r c : ℕ) (v : Cell) :
    getCell (setCell g r c v) r c = v ∨
      (setCell g r c v = g ∧ getCell g r c = none) := by
  rcases setCell_cases_strong g r c v with h | ⟨hr, hc⟩
  · exact Or.inr h
  · exact Or.inl (getCell_setCell_self g r c v hr hc)

/-- Decrementing a budget never increases any entry. -/
theorem decBudget_le (rem : String → ℕ) (ch : Cell) (k : String) :
    decBudget rem ch k ≤ rem k := by
  cases ch with
  | none => exact le_refl _
  | some c =>
    unfold decBudget updR
    by_cases hk : k = c
    · subst hk
      simp
    · simp [hk]

/-- The water loop only decrements budgets. -/
theorem waterAssign_rem_le (wg : List Cell) (blk : Option String)
    (tOf : ℕ → ℚ) (hx : String) :
    ∀ (l : List Scored) (st : Grid × (String → ℕ)) (k : String),
      (waterAssign wg blk tOf hx l st).2 k ≤ st.2 k := by
  intro l
  induction l with
  | nil => intro st k; exact le_refl _
  | cons pos rest ih =>
    intro st k
    rw [waterAssign]
    split
    · exact le_trans (ih _ k) (decBudget_le _ _ k)
    · exact ih _ k

/-- With the color's budget at 0 (and a black fallback other than the color),
the water loop never creates new cells of the color and keeps the budget at
0. -/
theorem waterAssign_freeze (wg : List Cell) (blk : Option String)
    (tOf : ℕ → ℚ) (c0 : String) (hx : String) (hblk : blk ≠ some hx) :
    ∀ (l : List Scored) (st : Grid × (String → ℕ)), st.2 hx = 0 →
      (waterAssign wg blk tOf c0 l st).2 hx = 0 ∧
        ∀ r c, getCell (waterAssign wg blk tOf c0 l st).1 r c = some hx →
          getCell st.1 r c = some hx := by
  intro l
  induction l with
  | nil => intro st h0; exact ⟨h0, fun r c h => h⟩
  | cons pos rest ih =>
    intro st h0
    rw [waterAssign]
    split
    · next ch hfind =>
      have hpred := List.find?_some hfind
      simp only [decide_eq_true_eq] at hpred
      have hnex : ch ≠ some hx := by
        intro hcon
        rw [hcon] at hpred
        have : budgetOf st.2 (some hx) = 0 := h0
        omega
      have h0' : (decBudget st.2 ch) hx = 0 :=
        Nat.le_zero.mp (h0 ▸ decBudget_le st.2 ch hx)
      obtain ⟨ha, hb⟩ :=
        ih (setCell st.1 pos.row pos.col ch, decBudget st.2 ch) h0'
      refine ⟨ha, fun r c hcell => ?_⟩
      have h2 := hb r c hcell
      by_cases hpos' : r = pos.row ∧ c = pos.col
      · rw [hpos'.1, hpos'.2] at h2 ⊢
        rcases getCell_setCell_strong st.1 pos.row pos.col ch with hv | ⟨hnoop, _⟩
        · rw [hv] at h2
          exact absurd h2 hnex
        · rw [hnoop] at h2
          exact h2
      · rw [getCell_setCell_ne st.1 pos.row pos.col ch r c
          (fun hcon => hpos' ⟨hcon.1, hcon.2⟩)] at h2
        exact h2
    · obtain ⟨ha, hb⟩ := ih (setCell st.1 pos.row pos.col blk, st.2) h0
      refine ⟨ha, fun r c hcell => ?_⟩
      have h2 := hb r c hcell
      by_cases hpos' : r = pos.row ∧ c = pos.col
      · rw [hpos'.1, hpos'.2] at h2 ⊢
        rcases getCell_setCell_strong st.1 pos.row pos.col blk with hv | ⟨hnoop, _⟩
        · rw [hv] at h2
          exact absurd h2 hblk
        · rw [hnoop] at h2
          exact h2
      · rw [getCell_setCell_ne st.1 pos.row pos.col blk r c
          (fun hcon => hpos' ⟨hcon.1, hcon.2⟩)] at h2
        exact h2

/-- The water loop preserves the usage-plus-budget bound of any color other
than the black fallback (it never writes the limited color, and every
budgeted write decrements the written color's budget). -/
theorem waterAssign_K (wg : List Cell) (blk : Option String) (tOf : ℕ → ℚ)
    (c0 : String) (hx : String) (h w : ℕ) (hblk : blk ≠ some hx) :
    ∀ (l : List Scored) (st : Grid × (String → ℕ)),
      (positionsOf (waterAssign wg blk tOf c0 l st).1 h w hx).length +
          (waterAssign wg blk tOf c0 l st).2 hx ≤
        (positionsOf st.1 h w hx).length + st.2 hx := by
  intro l
  induction l with
  | nil => intro st; exact le_refl _
  | cons pos rest ih =>
    intro st
    rw [waterAssign]
    split
    · next ch hfind =>
      have hpred := List.find?_some hfind
      simp only [decide_eq_true_eq] at hpred
      refine le_trans (ih _) ?_
      by_cases hchx : ch = some hx
      · subst hchx
        have hcount :=
          countIn_setCell_le st.1 pos.row pos.col (some hx) h w hx
        have hrem : decBudget st.2 (some hx) hx = st.2 hx - 1 := by
          simp [decBudget, updR]
        have hpos0 : 0 < st.2 hx := hpred.2
        dsimp only
        omega
      · have hcount := countIn_setCell_ne st.1 pos.row pos.col ch h w hx hchx
        have hrem := decBudget_le st.2 ch hx
        dsimp only
        omega
    · refine le_trans (ih _) ?_
      have hcount := countIn_setCell_ne st.1 pos.row pos.col blk h w hx hblk
      dsimp only
      omega

/-- With the color's budget at 0, after the water loop every processed
position holds something other than the color (each position is written, to a
non-`hx` candidate or to the black fallback, and never re-becomes `hx`). -/
theorem waterAssign_writes_all (wg : List Cell) (blk : Option String)
    (tOf : ℕ → ℚ) (hx : String) (hblk : blk ≠ some hx) :
    ∀ (l : List Scored) (st : Grid × (String → ℕ)), st.2 hx = 0 →
      ∀ p ∈ l,
        getCell (waterAssign wg blk tOf hx l st).1 p.row p.col ≠ some hx := by
  intro l
  induction l with
  | nil => intro st h0 p hp; cases hp
  | cons pos rest ih =>
    intro st h0 p hp
    rw [waterAssign]
    split
    · next ch hfind =>
      have hpred := List.find?_some hfind
      simp only [decide_eq_true_eq] at hpred
      have h0' : (decBudget st.2 ch) hx = 0 :=
        Nat.le_zero.mp (h0 ▸ decBudget_le st.2 ch hx)
      rcases List.mem_cons.mp hp with rfl | hp'
      · intro hcon
        have hfreeze := (waterAssign_freeze wg blk tOf hx hx hblk rest
          (setCell st.1 p.row p.col ch, decBudget st.2 ch) h0').2
          p.row p.col hcon
        rcases getCell_setCell_strong st.1 p.row p.col ch with hv | ⟨hnoop, hnone⟩
        · rw [hv] at hfreeze
          exact hpred.1 hfreeze
        · rw [hnoop] at hfreeze
          rw [hfreeze] at hnone
          cases hnone
      · exact ih (setCell st.1 pos.row pos.col ch, decBudget st.2 ch) h0' p hp'
    · rcases List.mem_cons.mp hp with rfl | hp'
      · intro hcon
        have hfreeze := (waterAssign_freeze wg blk tOf hx hx hblk rest
          (setCell st.1 p.row p.col blk, st.2) h0).2 p.row p.col hcon
        rcases getCell_setCell_strong st.1 p.row p.col blk with hv | ⟨hnoop, hnone⟩
        · rw [hv] at hfreeze
          exact hblk hfreeze
        · rw [hnoop] at hfreeze
          rw [hfreeze] at hnone
          cases hnone
      · exact ih (setCell st.1 pos.row pos.col blk, st.2) h0 p hp'

/-- The land loop only decrements budgets. -/
theorem landAssign_rem_le (ranked : List (String × ℚ)) :
    ∀ (l : List Scored) (st : Grid × (String → ℕ)) (k : String),
      (landAssign ranked l st).2 k ≤ st.2 k := by
  intro l
  induction l with
  | nil => intro st k; exact le_refl _
  | cons pos rest ih =>
    intro st k
    rw [landAssign]
    split
    · next cand _ =>
      refine le_trans (ih _ k) ?_
      exact decBudget_le st.2 (some cand.1) k
    · exact le_refl _

/-- Cells after the land reassignment loop: each is unchanged, or sits at one
of the processed positions and holds a ranked land candidate. -/
theorem landAssign_cells (ranked : List (String × ℚ)) :
    ∀ (l : List Scored) (st : Grid × (String → ℕ)) (r c : ℕ),
      getCell (landAssign ranked l st).1 r c = getCell st.1 r c ∨
        ((∃ p ∈ l, p.row = r ∧ p.col = c) ∧
          ∃ s, getCell (landAssign ranked l st).1 r c = some s ∧
            s ∈ ranked.map Prod.fst) := by
  intro l
  induction l with
  | nil => intro st r c; left; rfl
  | cons pos rest ih =>
    intro st r c
    rw [landAssign]
    split
    · next cand hfind =>
      have hmem := List.mem_of_find?_eq_some hfind
      rcases ih (setCell st.1 pos.row pos.col (some cand.1),
          updR st.2 cand.1 (st.2 cand.1 - 1)) r c with
        hsame | ⟨⟨p, hp, hrc⟩, s, hs, hsr⟩
      · rw [hsame]
        by_cases hpos : r = pos.row ∧ c = pos.col
        · rcases getCell_setCell_strong st.1 pos.row pos.col (some cand.1) with
            hv | ⟨hnoop, _⟩
          · right
            refine ⟨⟨pos, List.mem_cons_self _ _, hpos.1.symm, hpos.2.symm⟩,
              cand.1, ?_, List.mem_map_of_mem Prod.fst hmem⟩
            rw [hpos.1, hpos.2]
            exact hv
          · left
            rw [hpos.1, hpos.2, hnoop]
        · left
          exact getCell_setCell_ne st.1 pos.row pos.col (some cand.1) r c
            (fun hcon => hpos ⟨hcon.1, hcon.2⟩)
      · exact Or.inr ⟨⟨p, List.mem_cons_of_mem _ hp, hrc⟩, s, hs, hsr⟩
    · left
      rfl

/-- With the color's budget at 0, the land loop never creates new cells of
the color and keeps the budget at 0. -/
theorem landAssign_freeze (ranked : List (String × ℚ)) (hx : String) :
    ∀ (l : List Scored) (st : Grid × (String → ℕ)), st.2 hx = 0 →
      (landAssign ranked l st).2 hx = 0 ∧
        ∀ r c, getCell (landAssign ranked l st).1 r c = some hx →
          getCell st.1 r c = some hx := by
  intro l
  induction l with
  | nil => intro st h0; exact ⟨h0, fun r c h => h⟩
  | cons pos rest ih =>
    intro st h0
    rw [landAssign]
    split
    · next cand hfind =>
      have hpred := List.find?_some hfind
      simp only [decide_eq_true_eq] at hpred
      have hcx : cand.1 ≠ hx := fun hcon => by
        rw [hcon, h0] at hpred
        exact absurd hpred (lt_irrefl 0)
      have h0' : (updR st.2 cand.1 (st.2 cand.1 - 1)) hx = 0 := by
        unfold updR
        rw [if_neg (fun hcon => hcx hcon.symm)]
        exact h0
      obtain ⟨ha, hb⟩ := ih (setCell st.1 pos.row pos.col (some cand.1),
        updR st.2 cand.1 (st.2 cand.1 - 1)) h0'
      refine ⟨ha, fun r c hcell => ?_⟩
      have h2 := hb r c hcell
      by_cases hpos' : r = pos.row ∧ c = pos.col
      · rw [hpos'.1, hpos'.2] at h2 ⊢
        rcases getCell_setCell_strong st.1 pos.row pos.col (some cand.1) with
          hv | ⟨hnoop, _⟩
        · rw [hv] at h2
          exact absurd (Option.some.inj h2) hcx
        · rw [hnoop] at h2
          exact h2
      · rw [getCell_setCell_ne st.1 pos.row pos.col (some cand.1) r c
          (fun hcon => hpos' ⟨hcon.1, hcon.2⟩)] at h2
        exact h2
    · exact ⟨h0, fun r c h => h⟩

/-- The land loop preserves the usage-plus-budget bound of every color (each
write is budgeted and decrements the written color's budget). -/
theorem landAssign_K (ranked : List (String × ℚ)) (hx : String) (h w : ℕ) :
    ∀ (l : List Scored) (st : Grid × (String → ℕ)),
      (positionsOf (landAssign ranked l st).1 h w hx).length +
          (landAssign ranked l st).2 hx ≤
        (positionsOf st.1 h w hx).length + st.2 hx := by
  intro l
  induction l with
  | nil => intro st; exact le_refl _
  | cons pos rest ih =>
    intro st
    rw [landAssign]
    split
    · next cand hfind =>
      have hpred := List.find?_some hfind
      simp only [decide_eq_true_eq] at hpred
      refine le_trans (ih _) ?_
      dsimp only
      by_cases hchx : cand.1 = hx
      · have hcount :=
          countIn_setCell_le st.1 pos.row pos.col (some cand.1) h w hx
        have hrem : updR st.2 cand.1 (st.2 cand.1 - 1) hx = st.2 hx - 1 := by
          unfold updR
          rw [if_pos hchx.symm, hchx]
        have hpos0 : 0 < st.2 hx := hchx ▸ hpred
        omega
      · have hcount := countIn_setCell_ne st.1 pos.row pos.col (some cand.1)
          h w hx (fun hcon => hchx (Option.some.inj hcon))
        have hrem : updR st.2 cand.1 (st.2 cand.1 - 1) hx = st.2 hx := by
          unfold updR
          rw [if_neg (fun hcon => hchx hcon.symm)]
        omega
    · exact le_refl _

/-- Stable insertion keeps the multiset of elements. -/
theorem insertSorted_perm {α : Type} (le : α → α → Bool) (x : α)
    (l : List α) : (insertSorted le x l).Perm (x :: l) := by
  induction l with
  | nil => exact List.Perm.refl _
  | cons y ys ih =>
    rw [insertSorted]
    split
    · exact List.Perm.refl _
    · exact (ih.cons y).trans (List.Perm.swap x y ys)

/-- The stable sort is a permutation. -/
theorem sortBy_perm {α : Type} (le : α → α → Bool) (l : List α) :
    (sortBy le l).Perm l := by
  induction l with
  | nil => exact List.Perm.refl _
  | cons x xs ih => exact (insertSorted_perm le x (sortBy le xs)).trans (ih.cons x)

/-- An excess entry of the per-color loop descends from a position of the
color in the original grid. -/
theorem mem_drop_sortBy_map (le : Scored → Scored → Bool)
    (f : Posn → Scored) (hf : ∀ q, (f q).row = q.row ∧ (f q).col = q.col)
    (positions : List Posn) (limit : ℕ) (p : Scored)
    (hp : p ∈ (sortBy le (positions.map f)).drop limit) :
    ∃ q ∈ positions, p.row = q.row ∧ p.col = q.col := by
  have h1 : p ∈ sortBy le (positions.map f) := List.mem_of_mem_drop hp
  have h2 : p ∈ positions.map f := (sortBy_perm le _).mem_iff.mp h1
  obtain ⟨q, hq, rfl⟩ := List.mem_map.mp h2
  exact ⟨q, hq, (hf q).1, (hf q).2⟩

/-- Cells after one color's processing step: each is unchanged, or was a cell
of the processed color in the original grid and now holds a water-gradient
stop / the black fallback (water colors) or a land-palette color (land
colors). -/
theorem processColor_cells (cfg : Config) (grid : Grid) (h w : ℕ)
    (lN eN : ℕ → ℚ) (st : Grid × (String → ℕ)) (hx : String) (r c : ℕ) :
    getCell (processColor cfg grid h w lN eN st hx).1 r c =
        getCell st.1 r c ∨
      (getCell grid r c = some hx ∧
        (((WATER_HEXES cfg).contains hx = true ∧
            (getCell (processColor cfg grid h w lN eN st hx).1 r c ∈
                WATER_GRADIENT cfg ∨
              getCell (processColor cfg grid h w lN eN st hx).1 r c =
                colorByName cfg "black")) ∨
          ((WATER_HEXES cfg).contains hx = false ∧
            ∃ s, getCell (processColor cfg grid h w lN eN st hx).1 r c =
                some s ∧
              s ∈ (LAND_PALETTE cfg).map LandColor.hex))) := by
  simp only [processColor]
  split
  · next hwc =>
    rcases waterAssign_cells (WATER_GRADIENT cfg) (colorByName cfg "black")
        (fun i => waterBlendT (lN i) (eN i)) hx (WATER_GRADIENT_length cfg)
        _ st r c with hsame | ⟨⟨p, hp, hr, hc⟩, hval⟩
    · exact Or.inl hsame
    · right
      obtain ⟨q, hq, hqr, hqc⟩ :=
        mem_drop_sortBy_map _ _ (fun q => ⟨rfl, rfl⟩) _ _ p hp
      have hcell := (mem_positionsOf.mp hq).2.2.1
      rw [← hqr, ← hqc, hr, hc] at hcell
      exact ⟨hcell, Or.inl ⟨hwc, hval⟩⟩
  · next hwc =>
    rcases landAssign_cells _ _ st r c with hsame | ⟨⟨p, hp, hr, hc⟩, s, hs, hsr⟩
    · exact Or.inl hsame
    · right
      obtain ⟨q, hq, hqr, hqc⟩ :=
        mem_drop_sortBy_map _ _ (fun q => ⟨rfl, rfl⟩) _ _ p hp
      have hcell := (mem_positionsOf.mp hq).2.2.1
      rw [← hqr, ← hqc, hr, hc] at hcell
      refine ⟨hcell, Or.inr ⟨Bool.of_not_eq_true hwc, s, hs, ?_⟩⟩
      -- s is a hex of the ranked land candidates, hence of the land palette
      have hs3 := ((sortBy_perm _ _).map Prod.fst).mem_iff.mp hsr
      rw [List.map_map] at hs3
      obtain ⟨pc, hpc, rfl⟩ := List.mem_map.mp hs3
      exact List.mem_map_of_mem _ (List.mem_of_mem_filter hpc)

/-- One color's processing step only decrements budgets. -/
theorem processColor_rem_le (cfg : Config) (grid : Grid) (h w : ℕ)
    (lN eN : ℕ → ℚ) (st : Grid × (String → ℕ)) (hx : String) (k : String) :
    (processColor cfg grid h w lN eN st hx).2 k ≤ st.2 k := by
  simp only [processColor]
  split
  · exact waterAssign_rem_le _ _ _ _ _ st k
  · exact landAssign_rem_le _ _ st k

/-- With a color's budget at 0 (and a black lookup other than the color),
one processing step (of any color) cannot create cells of that color and
keeps its budget at 0. -/
theorem processColor_freeze (cfg : Config) (grid : Grid) (h w : ℕ)
    (lN eN : ℕ → ℚ) (st : Grid × (String → ℕ)) (c0 hx : String)
    (hblk : colorByName cfg "black" ≠ some hx) (h0 : st.2 hx = 0) :
    (processColor cfg grid h w lN eN st c0).2 hx = 0 ∧
      ∀ r c, getCell (processColor cfg grid h w lN eN st c0).1 r c = some hx →
        getCell st.1 r c = some hx := by
  simp only [processColor]
  split
  · exact waterAssign_freeze _ _ _ _ _ hblk _ st h0
  · exact landAssign_freeze _ _ _ st h0

/-- One processing step preserves the usage-plus-budget bound of any color
other than the black fallback. -/
theorem processColor_K (cfg : Config) (grid : Grid) (h w : ℕ)
    (lN eN : ℕ → ℚ) (st : Grid × (String → ℕ)) (c0 hx : String)
    (hblk : colorByName cfg "black" ≠ some hx) :
    (positionsOf (processColor cfg grid h w lN eN st c0).1 h w hx).length +
        (processColor cfg grid h w lN eN st c0).2 hx ≤
      (positionsOf st.1 h w hx).length + st.2 hx := by
  simp only [processColor]
  split
  · exact waterAssign_K _ _ _ _ _ h w hblk _ st
  · exact landAssign_K _ _ h w _ st

/-- The over-limit colors collected by the initialization loop are exactly
the present colors whose usage exceeds their limit, in scan order. -/
theorem initStep_snd (cfg : Config) (grid : Grid) (h w : ℕ) :
    ∀ (l : List String) (rem : String → ℕ) (acc : List String),
      (l.foldl (initStep cfg grid h w) (rem, acc)).2 =
        acc ++ l.filter (fun k =>
          ¬ (positionsOf grid h w k).length ≤ (limitsOf cfg k).getD 0) := by
  intro l
  induction l with
  | nil => intro rem acc; simp
  | cons k rest ih =>
    intro rem acc
    rw [List.foldl_cons, List.filter_cons, initStep]
    by_cases hk : (positionsOf grid h w k).length ≤ (limitsOf cfg k).getD 0
    · rw [if_pos hk, ih]
      simp [hk]
    · rw [if_neg hk, ih]
      simp [hk]

/-- The budget map produced by the initialization loop. -/
theorem initStep_fst (cfg : Config) (grid : Grid) (h w : ℕ) :
    ∀ (l : List String) (rem : String → ℕ) (acc : List String) (hx : String),
      (l.foldl (initStep cfg grid h w) (rem, acc)).1 hx =
        if hx ∈ l then
          (if (positionsOf grid h w hx).length ≤ (limitsOf cfg hx).getD 0
           then (limitsOf cfg hx).getD 0 - (positionsOf grid h w hx).length
           else 0)
        else rem hx := by
  intro l
  induction l with
  | nil => intro rem acc hx; simp
  | cons k rest ih =>
    intro rem acc hx
    rw [List.foldl_cons, initStep]
    by_cases hx_mem : hx ∈ k :: rest
    · rw [if_pos hx_mem]
      by_cases hxr : hx ∈ rest
      · by_cases hk : (positionsOf grid h w k).length ≤ (limitsOf cfg k).getD 0
        · rw [if_pos hk, ih, if_pos hxr]
        · rw [if_neg hk, ih, if_pos hxr]
      · have hxk : hx = k := by
          rcases List.mem_cons.mp hx_mem with hh | hh
          · exact hh
          · exact absurd hh hxr
        subst hxk
        by_cases hk : (positionsOf grid h w hx).length ≤ (limitsOf cfg hx).getD 0
        · rw [if_pos hk, ih, if_neg hxr, if_pos hk]
          unfold updR
          rw [if_pos rfl]
        · rw [if_neg hk, ih, if_neg hxr, if_neg hk]
          unfold updR
          rw [if_pos rfl]
    · rw [if_neg hx_mem]
      have hxk : hx ≠ k := fun hh => hx_mem (hh ▸ List.mem_cons_self k rest)
      have hxr : hx ∉ rest := fun hh => hx_mem (List.mem_cons_of_mem k hh)
      by_cases hk : (positionsOf grid h w k).length ≤ (limitsOf cfg k).getD 0
      · rw [if_pos hk, ih, if_neg hxr]
        unfold updR
        rw [if_neg hxk]
      · rw [if_neg hk, ih, if_neg hxr]
        unfold updR
        rw [if_neg hxk]

/-- Membership in first-occurrence deduplication. -/
theorem mem_dedupFirstAux :
    ∀ (l : List String) (seen : List String) (x : String),
      x ∈ dedupFirstAux seen l ↔ x ∈ l ∧ x ∉ seen := by
  intro l
  induction l with
  | nil => intro seen x; simp [dedupFirstAux]
  | cons y ys ih =>
    intro seen x
    rw [dedupFirstAux]
    by_cases hy : seen.contains y
    · rw [if_pos hy, ih]
      constructor
      · rintro ⟨h1, h2⟩
        exact ⟨List.mem_cons_of_mem _ h1, h2⟩
      · rintro ⟨h1, h2⟩
        rcases List.mem_cons.mp h1 with rfl | h1'
        · exact absurd (List.elem_iff.mp hy) (by simpa using h2)
        · exact ⟨h1', h2⟩
    · rw [if_neg hy]
      constructor
      · intro hmem
        rcases List.mem_cons.mp hmem with rfl | h1
        · refine ⟨List.mem_cons_self _ _, fun hcon => hy ?_⟩
          exact List.elem_iff.mpr hcon
        · obtain ⟨ha, hb⟩ := (ih _ x).mp h1
          refine ⟨List.mem_cons_of_mem _ ha, fun hcon => hb ?_⟩
          exact List.mem_cons_of_mem _ hcon
      · rintro ⟨h1, h2⟩
        rcases List.mem_cons.mp h1 with rfl | h1'
        · exact List.mem_cons_self _ _
        · by_cases hxy : x = y
          · subst hxy
            exact List.mem_cons_self _ _
          · refine List.mem_cons_of_mem _ ((ih _ x).mpr ⟨h1', fun hcon => ?_⟩)
            rcases List.mem_cons.mp hcon with hh | hh
            · exact hxy hh
            · exact h2 hh

/-- First-occurrence deduplication keeps exactly the original elements. -/
theorem mem_dedupFirst (l : List String) (x : String) :
    x ∈ dedupFirst l ↔ x ∈ l := by
  rw [dedupFirst, mem_dedupFirstAux]
  simp

/-- First-occurrence deduplication is duplicate-free. -/
theorem dedupFirst_nodup (l : List String) : (dedupFirst l).Nodup := by
  suffices h : ∀ (l seen : List String), (dedupFirstAux seen l).Nodup by
    exact h l []
  intro l
  induction l with
  | nil => intro seen; simp [dedupFirstAux]
  | cons y ys ih =>
    intro seen
    rw [dedupFirstAux]
    by_cases hy : seen.contains y
    · rw [if_pos hy]
      exact ih seen
    · rw [if_neg hy]
      refine List.nodup_cons.mpr ⟨?_, ih (y :: seen)⟩
      intro hcon
      exact ((mem_dedupFirstAux ys (y :: seen) y).mp hcon).2
        (List.mem_cons_self _ _)

/-- A color is present in the scan iff some scanned cell holds it. -/
theorem mem_colorsPresent {grid : Grid} {h w : ℕ} {hx : String} :
    hx ∈ colorsPresent grid h w ↔
      ∃ r c, r < h ∧ c < w ∧ getCell grid r c = some hx := by
  unfold colorsPresent
  rw [mem_dedupFirst]
  simp only [List.mem_filterMap]
  constructor
  · rintro ⟨⟨r, c⟩, hmem, hcell⟩
    rcases mem_allPositions.mp hmem with ⟨hr, hc⟩
    exact ⟨r, c, hr, hc, hcell⟩
  · rintro ⟨r, c, hr, hc, hcell⟩
    exact ⟨(r, c), mem_allPositions.mpr ⟨hr, hc⟩, hcell⟩

/-- A color with nonzero usage is present. -/
theorem mem_colorsPresent_of_pos {grid : Grid} {h w : ℕ} {hx : String}
    (hpos : 0 < (positionsOf grid h w hx).length) :
    hx ∈ colorsPresent grid h w := by
  obtain ⟨p, hp⟩ := List.exists_mem_of_length_pos hpos
  rcases mem_positionsOf.mp hp with ⟨hr, hc, hcell, _⟩
  exact mem_colorsPresent.mpr ⟨p.row, p.col, hr, hc, hcell⟩

theorem SameShape.refl (g : Grid) : SameShape g g := ⟨rfl, fun _ => rfl⟩

theorem SameShape.trans {g1 g2 g3 : Grid} (h1 : SameShape g1 g2)
    (h2 : SameShape g2 g3) : SameShape g1 g3 :=
  ⟨h1.1.trans h2.1, fun r => (h1.2 r).trans (h2.2 r)⟩

theorem setCell_sameShape (g : Grid) (r c : ℕ) (v : Cell) :
    SameShape (setCell g r c v) g :=
  ⟨setCell_length g r c v, setCell_row_length g r c v⟩

theorem waterAssign_sameShape (wg : List Cell) (blk : Option String)
    (tOf : ℕ → ℚ) (hx : String) :
    ∀ (l : List Scored) (st : Grid × (String → ℕ)),
      SameShape (waterAssign wg blk tOf hx l st).1 st.1 := by
  intro l
  induction l with
  | nil => intro st; exact SameShape.refl _
  | cons pos rest ih =>
    intro st
    rw [waterAssign]
    split
    · exact (ih _).trans (setCell_sameShape st.1 pos.row pos.col _)
    · exact (ih _).trans (setCell_sameShape st.1 pos.row pos.col _)

theorem landAssign_sameShape (ranked : List (String × ℚ)) :
    ∀ (l : List Scored) (st : Grid × (String → ℕ)),
      SameShape (landAssign ranked l st).1 st.1 := by
  intro l
  induction l with
  | nil => intro st; exact SameShape.refl _
  | cons pos rest ih =>
    intro st
    rw [landAssign]
    split
    · exact (ih _).trans (setCell_sameShape st.1 pos.row pos.col _)
    · exact SameShape.refl _

theorem processColor_sameShape (cfg : Config) (grid : Grid) (h w : ℕ)
    (lN eN : ℕ → ℚ) (st : Grid × (String → ℕ)) (hx : String) :
    SameShape (processColor cfg grid h w lN eN st hx).1 st.1 := by
  simp only [processColor]
  split
  · exact waterAssign_sameShape _ _ _ _ _ st
  · exact landAssign_sameShape _ _ st

theorem foldl_processColor_sameShape (cfg : Config) (grid : Grid) (h w : ℕ)
    (lN eN : ℕ → ℚ) :
    ∀ (over : List String) (st : Grid × (String → ℕ)),
      SameShape (over.foldl (processColor cfg grid h w lN eN) st).1 st.1 := by
  intro over
  induction over with
  | nil => intro st; exact SameShape.refl _
  | cons hx rest ih =>
    intro st
    rw [List.foldl_cons]
    exact (ih _).trans (processColor_sameShape cfg grid h w lN eN st hx)

/-- The overall structure of `fixGridLimits`: either no color is over-limit
and the grid is returned unchanged, or the result is the per-color fold with
characterized over-color list and initial budget map. -/
theorem fixGridLimits_shape (cfg : Config) (grid : Grid) :
    (fixGridLimits cfg grid = grid ∧
      (colorsPresent grid grid.length (grid.headD []).length).filter
        (fun k => ¬ (positionsOf grid grid.length (grid.headD []).length
            k).length ≤ (limitsOf cfg k).getD 0) = []) ∨
    ∃ (lN eN : ℕ → ℚ) (rem1 : String → ℕ) (over : List String),
      fixGridLimits cfg grid =
        (over.foldl
          (processColor cfg grid grid.length (grid.headD []).length lN eN)
          (grid, rem1)).1 ∧
      over.Perm
        ((colorsPresent grid grid.length (grid.headD []).length).filter
          (fun k => ¬ (positionsOf grid grid.length (grid.headD []).length
              k).length ≤ (limitsOf cfg k).getD 0)) ∧
      (∀ hx, rem1 hx =
        if hx ∈ colorsPresent grid grid.length (grid.headD []).length then
          (if (positionsOf grid grid.length (grid.headD []).length hx).length ≤
              (limitsOf cfg hx).getD 0
           then (limitsOf cfg hx).getD 0 -
              (positionsOf grid grid.length (grid.headD []).length hx).length
           else 0)
        else (limitsOf cfg hx).getD 0) := by
  simp only [fixGridLimits]
  rw [initStep_snd]
  rw [List.nil_append]
  split
  · next hempt =>
    exact Or.inl ⟨rfl, hempt⟩
  · right
    refine ⟨_, _, _, _, rfl, sortBy_perm _ _, ?_⟩
    intro hx
    rw [initStep_fst]

/-- `List.contains` read as membership. -/
theorem contains_eq_true_iff {l : List String} {a : String} :
    l.contains a = true ↔ a ∈ l := by
  show l.elem a = true ↔ a ∈ l
  exact List.elem_iff

/-- A string is a water hex exactly when its `some` is a gradient stop. -/
theorem mem_WATER_HEXES {cfg : Config} {s : String} :
    s ∈ WATER_HEXES cfg ↔ some s ∈ WATER_GRADIENT cfg := by
  unfold WATER_HEXES WATER_GRADIENT
  rw [List.mem_filterMap]
  constructor
  · rintro ⟨o, ho, hid⟩
    simp only [id_eq] at hid
    exact hid ▸ ho
  · intro h
    exact ⟨some s, h, rfl⟩

/-- The black lookup is the first gradient stop. -/
theorem black_mem_WATER_GRADIENT (cfg : Config) :
    colorByName cfg "black" ∈ WATER_GRADIENT cfg := by
  simp [WATER_GRADIENT, waterNames]

/-- Land hexes are exactly the non-water config hexes. -/
theorem mem_LAND_HEXES_not_water {cfg : Config} {s : String}
    (h : s ∈ LAND_HEXES cfg) : (WATER_HEXES cfg).contains s = false := by
  unfold LAND_HEXES at h
  obtain ⟨cc, hc, rfl⟩ := List.mem_map.mp h
  have hp := List.of_mem_filter hc
  simp only [decide_eq_true_eq, Bool.not_eq_true] at hp
  exact hp

/-- A land-palette hex is a land hex. -/
theorem mem_LAND_PALETTE_hex {cfg : Config} {s : String}
    (h : s ∈ (LAND_PALETTE cfg).map LandColor.hex) : s ∈ LAND_HEXES cfg := by
  unfold LAND_PALETTE at h
  rw [List.map_map] at h
  obtain ⟨cc, hc, hcs⟩ := List.mem_map.mp h
  have hp := List.of_mem_filter hc
  simp only [decide_eq_true_eq] at hp
  have hhex : cc.hex = s := hcs
  exact hhex ▸ contains_eq_true_iff.mp hp

/-- Through the per-color fold, every cell is either unchanged from the
original grid or a class-compatible replacement. -/
theorem foldl_processColor_cellsInv (cfg : Config) (grid : Grid) (h w : ℕ)
    (lN eN : ℕ → ℚ) :
    ∀ (over : List String) (st : Grid × (String → ℕ)) (r c : ℕ),
      (getCell st.1 r c = getCell grid r c ∨ CellRepl cfg grid st.1 r c) →
      (getCell (over.foldl (processColor cfg grid h w lN eN) st).1 r c =
          getCell grid r c ∨
        CellRepl cfg grid (over.foldl (processColor cfg grid h w lN eN) st).1
          r c) := by
  intro over
  induction over with
  | nil => intro st r c hinv; exact hinv
  | cons c0 rest ih =>
    intro st r c hinv
    rw [List.foldl_cons]
    apply ih
    rcases processColor_cells cfg grid h w lN eN st c0 r c with hsame | ⟨horig, hclass⟩
    · rcases hinv with heq | ⟨hx, hox, hcls⟩
      · rw [hsame]
        exact Or.inl heq
      · refine Or.inr ⟨hx, hox, ?_⟩
        rw [hsame]
        exact hcls
    · exact Or.inr ⟨c0, horig, hclass⟩

/-- Every cell of `fixGridLimits`' output is unchanged or a class-compatible
replacement of an originally held color. -/
theorem fixGridLimits_cells (cfg : Config) (grid : Grid) (r c : ℕ) :
    getCell (fixGridLimits cfg grid) r c = getCell grid r c ∨
      CellRepl cfg grid (fixGridLimits cfg grid) r c := by
  rcases fixGridLimits_shape cfg grid with ⟨heq, _⟩ |
    ⟨lN, eN, rem1, over, heq, _, _⟩
  · rw [heq]
    exact Or.inl rfl
  · rw [heq]
    exact foldl_processColor_cellsInv cfg grid _ _ lN eN over (grid, rem1) r c
      (Or.inl rfl)

/-- `fixGridLimits` preserves the grid's shape. -/
theorem fixGridLimits_sameShape (cfg : Config) (grid : Grid) :
    SameShape (fixGridLimits cfg grid) grid := by
  rcases fixGridLimits_shape cfg grid with ⟨heq, _⟩ |
    ⟨lN, eN, rem1, over, heq, _, _⟩
  · rw [heq]
    exact SameShape.refl _
  · rw [heq]
    exact foldl_processColor_sameShape cfg grid _ _ lN eN over (grid, rem1)

/-- When every gradient stop resolves, the limiter preserves each cell's
emptiness. -/
theorem fixGridLimits_isSome (cfg : Config) (grid : Grid)
    (hwg : ∀ v ∈ WATER_GRADIENT cfg, v.isSome = true) (r c : ℕ) :
    (getCell (fixGridLimits cfg grid) r c).isSome =
      (getCell grid r c).isSome := by
  rcases fixGridLimits_cells cfg grid r c with heq | ⟨hx, horig, hcase⟩
  · rw [heq]
  · rw [horig]
    rcases hcase with ⟨_, hval | hval⟩ | ⟨_, s, hval, _⟩
    · rw [hwg _ hval]
      rfl
    · rw [hval, hwg _ (black_mem_WATER_GRADIENT cfg)]
      rfl
    · rw [hval]
      rfl

/-- Rows with equal length and pointwise-equal emptiness have the same count
of non-empty cells. -/
theorem countP_isSome_eq_of_getD :
    ∀ (l1 l2 : List Cell), l1.length = l2.length →
      (∀ c, (l1.getD c none).isSome = (l2.getD c none).isSome) →
      l1.countP (fun x => x.isSome) = l2.countP (fun x => x.isSome) := by
  intro l1
  induction l1 with
  | nil =>
    intro l2 hlen _
    cases l2 with
    | nil => rfl
    | cons b t => cases hlen
  | cons a t ih =>
    intro l2 hlen hcell
    cases l2 with
    | nil => cases hlen
    | cons b t2 =>
      rw [List.countP_cons, List.countP_cons]
      have h0 := hcell 0
      rw [List.getD_cons_zero, List.getD_cons_zero] at h0
      have ht := ih t2 (by simpa using hlen) (fun c => by
        have hc := hcell (c + 1)
        rwa [List.getD_cons_succ, List.getD_cons_succ] at hc)
      rw [ht, h0]

/-- Grids of the same shape with pointwise-equal emptiness have the same
non-empty count. -/
theorem nonEmptyCount_eq_of_shape :
    ∀ (g1 g2 : Grid), g1.length = g2.length →
      (∀ r, (g1.getD r []).length = (g2.getD r []).length) →
      (∀ r c, (getCell g1 r c).isSome = (getCell g2 r c).isSome) →
      nonEmptyCount g1 = nonEmptyCount g2 := by
  intro g1
  induction g1 with
  | nil =>
    intro g2 hlen _ _
    cases g2 with
    | nil => rfl
    | cons b t => cases hlen
  | cons row t ih =>
    intro g2 hlen hrow hcell
    cases g2 with
    | nil => cases hlen
    | cons row2 t2 =>
      unfold nonEmptyCount
      rw [List.map_cons, List.map_cons, List.sum_cons, List.sum_cons]
      have hhead : (row.filter (fun c => c.isSome)).length =
          (row2.filter (fun c => c.isSome)).length := by
        rw [← List.countP_eq_length_filter, ← List.countP_eq_length_filter]
        refine countP_isSome_eq_of_getD row row2 ?_ ?_
        · have hr0 := hrow 0
          rwa [List.getD_cons_zero, List.getD_cons_zero] at hr0
        · intro c
          have hc := hcell 0 c
          unfold getCell at hc
          rwa [List.getD_cons_zero, List.getD_cons_zero] at hc
      have htail : nonEmptyCount t = nonEmptyCount t2 := by
        refine ih t2 (by simpa using hlen) ?_ ?_
        · intro r
          have hr := hrow (r + 1)
          rwa [List.getD_cons_succ, List.getD_cons_succ] at hr
        · intro r c
          have hc := hcell (r + 1) c
          unfold getCell at hc
          rwa [List.getD_cons_succ, List.getD_cons_succ] at hc
      unfold nonEmptyCount at htail
      rw [hhead, htail]

/-- C3: for every grid and palette whose four water names all resolve (the
spec's input contract), `fixGridLimits` preserves the total number of
non-empty cells, and indeed each individual cell's emptiness: limiting
reassigns colors but never empties a non-empty cell nor fills an empty
one. -/
theorem claim_C3_conservation (cfg : Config) (grid : Grid)
    (hwg : ∀ v ∈ WATER_GRADIENT cfg, v.isSome = true) :
    nonEmptyCount (fixGridLimits cfg grid) = nonEmptyCount grid ∧
      ∀ r c, (getCell (fixGridLimits cfg grid) r c).isSome =
        (getCell grid r c).isSome := by
  obtain ⟨hlen, hrow⟩ := fixGridLimits_sameShape cfg grid
  exact ⟨nonEmptyCount_eq_of_shape _ _ hlen hrow
      (fixGridLimits_isSome cfg grid hwg),
    fixGridLimits_isSome cfg grid hwg⟩

/-- C3 witness: the theorem applied to the demo palette and the
over-limit all-red demo grid. -/
theorem claim_C3_conservation_witness :
    nonEmptyCount (fixGridLimits cfgDemo gridDemo) = nonEmptyCount gridDemo ∧
      ∀ r c, (getCell (fixGridLimits cfgDemo gridDemo) r c).isSome =
        (getCell gridDemo r c).isSome :=
  claim_C3_conservation cfgDemo gridDemo (by decide)

/-- C9: for every grid and palette whose four water names all resolve,
`fixGridLimits` preserves each cell's water/land class: a cell holding a
water-set hex ends holding a water-set hex, and a cell holding a land-set
hex ends holding a land-set hex. -/
theorem claim_C9_class_preserved (cfg : Config) (grid : Grid)
    (hwg : ∀ v ∈ WATER_GRADIENT cfg, v.isSome = true) (r c : ℕ) (s : String)
    (hcell : getCell grid r c = some s) :
    (s ∈ WATER_HEXES cfg →
      ∃ t, getCell (fixGridLimits cfg grid) r c = some t ∧
        t ∈ WATER_HEXES cfg) ∧
    (s ∈ LAND_HEXES cfg →
      ∃ t, getCell (fixGridLimits cfg grid) r c = some t ∧
        t ∈ LAND_HEXES cfg) := by
  rcases fixGridLimits_cells cfg grid r c with heq | ⟨hx, horig, hcase⟩
  · rw [heq, hcell]
    exact ⟨fun hs => ⟨s, rfl, hs⟩, fun hs => ⟨s, rfl, hs⟩⟩
  · have hxs : s = hx := Option.some.inj (hcell ▸ horig)
    subst hxs
    rcases hcase with ⟨hwater, hval⟩ | ⟨hland, s2, hval, hs2⟩
    · constructor
      · intro _
        rcases hval with hmem | hblackv
        · have hsome := hwg _ hmem
          cases hv : getCell (fixGridLimits cfg grid) r c with
          | none =>
            rw [hv] at hsome
            cases hsome
          | some t =>
            rw [hv] at hmem
            exact ⟨t, rfl, mem_WATER_HEXES.mpr hmem⟩
        · cases hb : colorByName cfg "black" with
          | none =>
            have hsome := hwg _ (black_mem_WATER_GRADIENT cfg)
            rw [hb] at hsome
            cases hsome
          | some b =>
            refine ⟨b, by rw [hblackv, hb], ?_⟩
            exact mem_WATER_HEXES.mpr (hb ▸ black_mem_WATER_GRADIENT cfg)
      · intro hs_land
        have hnw := mem_LAND_HEXES_not_water hs_land
        rw [hwater] at hnw
        cases hnw
    · constructor
      · intro hs_water
        have hcont : (WATER_HEXES cfg).contains s = true :=
          contains_eq_true_iff.mpr hs_water
        rw [hland] at hcont
        cases hcont
      · intro _
        exact ⟨s2, hval, mem_LAND_PALETTE_hex hs2⟩

/-- C9 witness: the theorem applied to the demo palette and demo grid at the
red cell (0,0). -/
theorem claim_C9_class_preserved_witness :
    ("#CC0000" ∈ WATER_HEXES cfgDemo →
      ∃ t, getCell (fixGridLimits cfgDemo gridDemo) 0 0 = some t ∧
        t ∈ WATER_HEXES cfgDemo) ∧
    ("#CC0000" ∈ LAND_HEXES cfgDemo →
      ∃ t, getCell (fixGridLimits cfgDemo gridDemo) 0 0 = some t ∧
        t ∈ LAND_HEXES cfgDemo) :=
  claim_C9_class_preserved cfgDemo gridDemo (by decide) 0 0 "#CC0000"
    (by decide)

/-- `headD` with default `[]` is `getD 0`. -/
theorem headD_eq_getD (g : Grid) : g.headD [] = g.getD 0 [] := by
  cases g <;> rfl

/-- Budget-0 freeze through the whole per-color fold. -/
theorem foldl_processColor_freeze (cfg : Config) (grid : Grid) (h w : ℕ)
    (lN eN : ℕ → ℚ) (hx : String)
    (hblk : colorByName cfg "black" ≠ some hx) :
    ∀ (over : List String) (st : Grid × (String → ℕ)), st.2 hx = 0 →
      (over.foldl (processColor cfg grid h w lN eN) st).2 hx = 0 ∧
        ∀ r c,
          getCell (over.foldl (processColor cfg grid h w lN eN) st).1 r c =
              some hx →
            getCell st.1 r c = some hx := by
  intro over
  induction over with
  | nil => intro st h0; exact ⟨h0, fun r c hc => hc⟩
  | cons c0 rest ih =>
    intro st h0
    rw [List.foldl_cons]
    have hstep := processColor_freeze cfg grid h w lN eN st c0 hx hblk h0
    obtain ⟨ha, hb⟩ := ih (processColor cfg grid h w lN eN st c0) hstep.1
    exact ⟨ha, fun r c hc => hstep.2 r c (hb r c hc)⟩

/-- The usage-plus-budget bound through the whole per-color fold. -/
theorem foldl_processColor_K (cfg : Config) (grid : Grid) (h w : ℕ)
    (lN eN : ℕ → ℚ) (hx : String)
    (hblk : colorByName cfg "black" ≠ some hx) :
    ∀ (over : List String) (st : Grid × (String → ℕ)),
      (positionsOf (over.foldl (processColor cfg grid h w lN eN) st).1
            h w hx).length +
          (over.foldl (processColor cfg grid h w lN eN) st).2 hx ≤
        (positionsOf st.1 h w hx).length + st.2 hx := by
  intro over
  induction over with
  | nil => intro st; exact le_refl _
  | cons c0 rest ih =>
    intro st
    rw [List.foldl_cons]
    exact le_trans (ih _) (processColor_K cfg grid h w lN eN st c0 hx hblk)

/-- After the water loop over the excess of a zero-budget color, the color's
usage is bounded by the number of kept (non-excess) positions. -/
theorem waterAssign_over_bound (wg : List Cell) (blk : Option String)
    (tOf : ℕ → ℚ) (hx : String) (hwg4 : wg.length = 4) (hblk : blk ≠ some hx)
    (grid : Grid) (h w : ℕ) (le : Scored → Scored → Bool) (f : Posn → Scored)
    (hf : ∀ q, (f q).row = q.row ∧ (f q).col = q.col)
    (limit : ℕ) (st : Grid × (String → ℕ)) (h0 : st.2 hx = 0)
    (hsub : ∀ r c, getCell st.1 r c = some hx → getCell grid r c = some hx) :
    (positionsOf
        (waterAssign wg blk tOf hx
          ((sortBy le ((positionsOf grid h w hx).map f)).drop limit) st).1
        h w hx).length ≤ limit := by
  have hwall := waterAssign_writes_all wg blk tOf hx hblk
    ((sortBy le ((positionsOf grid h w hx).map f)).drop limit) st h0
  have hsubset : ((allPositions h w).filter (fun p =>
      getCell (waterAssign wg blk tOf hx
        ((sortBy le ((positionsOf grid h w hx).map f)).drop limit) st).1
        p.1 p.2 == some hx)) ⊆
      ((sortBy le ((positionsOf grid h w hx).map f)).take limit).map
        (fun q => (q.row, q.col)) := by
    intro p hp
    have hmem := List.mem_of_mem_filter hp
    have hcellb := List.of_mem_filter hp
    rw [beq_iff_eq] at hcellb
    have hnotex :
        ∀ q ∈ (sortBy le ((positionsOf grid h w hx).map f)).drop limit,
          ¬(q.row = p.1 ∧ q.col = p.2) := by
      intro q hq hqc
      have hne := hwall q hq
      rw [hqc.1, hqc.2] at hne
      exact hne hcellb
    have hst : getCell st.1 p.1 p.2 = some hx := by
      rcases waterAssign_cells wg blk tOf hx hwg4
          ((sortBy le ((positionsOf grid h w hx).map f)).drop limit) st p.1 p.2
        with hsame | ⟨⟨q, hq, hqr, hqc⟩, _⟩
      · rw [← hsame]
        exact hcellb
      · exact absurd ⟨hqr, hqc⟩ (hnotex q hq)
    have hgrid := hsub p.1 p.2 hst
    have hrc := mem_allPositions.mp hmem
    have hq0 : (⟨p.1, p.2, p.1 * w + p.2⟩ : Posn) ∈ positionsOf grid h w hx :=
      mem_positionsOf.mpr ⟨hrc.1, hrc.2, hgrid, rfl⟩
    have hfq : f ⟨p.1, p.2, p.1 * w + p.2⟩ ∈
        sortBy le ((positionsOf grid h w hx).map f) :=
      (sortBy_perm le _).mem_iff.mpr (List.mem_map_of_mem f hq0)
    have hfq' : f ⟨p.1, p.2, p.1 * w + p.2⟩ ∈
        (sortBy le ((positionsOf grid h w hx).map f)).take limit ++
          (sortBy le ((positionsOf grid h w hx).map f)).drop limit := by
      rw [List.take_append_drop]
      exact hfq
    rcases List.mem_append.mp hfq' with htake | hdrop
    · refine List.mem_map.mpr ⟨_, htake, ?_⟩
      rw [(hf _).1, (hf _).2]
    · exact absurd ⟨(hf _).1, (hf _).2⟩ (hnotex _ hdrop)
  rw [countIn_def, List.countP_eq_length_filter]
  refine le_trans
    (nodup_subset_length_le ((allPositions_nodup h w).filter _) hsubset) ?_
  rw [List.length_map, List.length_take]
  exact min_le_left _ _

/-- Processing an over-limit water color with zero budget leaves its usage
within its limit. -/
theorem processColor_over_bound (cfg : Config) (grid : Grid) (h w : ℕ)
    (lN eN : ℕ → ℚ) (st : Grid × (String → ℕ)) (hx : String)
    (hwat : (WATER_HEXES cfg).contains hx = true)
    (hblk : colorByName cfg "black" ≠ some hx)
    (h0 : st.2 hx = 0)
    (hsub : ∀ r c, getCell st.1 r c = some hx → getCell grid r c = some hx) :
    (positionsOf (processColor cfg grid h w lN eN st hx).1 h w hx).length ≤
      (limitsOf cfg hx).getD 0 := by
  simp only [processColor]
  split
  · exact waterAssign_over_bound (WATER_GRADIENT cfg)
      (colorByName cfg "black") _ hx (WATER_GRADIENT_length cfg) hblk grid h w
      _ _ (fun q => ⟨rfl, rfl⟩) _ st h0 hsub
  · next hwc => exact absurd hwat hwc

/-- Folding over a list that contains an over-limit water color (with zero
initial budget) bounds that color's final usage by its limit. -/
theorem foldl_processColor_over_bound (cfg : Config) (grid : Grid) (h w : ℕ)
    (lN eN : ℕ → ℚ) (hx : String)
    (hwat : (WATER_HEXES cfg).contains hx = true)
    (hblk : colorByName cfg "black" ≠ some hx)
    (l1 l2 : List String) (st : Grid × (String → ℕ)) (h0 : st.2 hx = 0)
    (hsub : ∀ r c, getCell st.1 r c = some hx → getCell grid r c = some hx) :
    (positionsOf
        ((l1 ++ hx :: l2).foldl (processColor cfg grid h w lN eN) st).1
        h w hx).length ≤ (limitsOf cfg hx).getD 0 := by
  rw [List.foldl_append, List.foldl_cons]
  have hph1 := foldl_processColor_freeze cfg grid h w lN eN hx hblk l1 st h0
  have hsub1 : ∀ r c,
      getCell (l1.foldl (processColor cfg grid h w lN eN) st).1 r c =
          some hx →
        getCell grid r c = some hx :=
    fun r c hc => hsub r c (hph1.2 r c hc)
  have hb2 := processColor_over_bound cfg grid h w lN eN
    (l1.foldl (processColor cfg grid h w lN eN) st) hx hwat hblk hph1.1 hsub1
  have h0'' : (processColor cfg grid h w lN eN
      (l1.foldl (processColor cfg grid h w lN eN) st) hx).2 hx = 0 :=
    Nat.le_zero.mp (hph1.1 ▸ processColor_rem_le cfg grid h w lN eN _ hx hx)
  have hph3 := foldl_processColor_freeze cfg grid h w lN eN hx hblk l2 _ h0''
  refine le_trans ?_ hb2
  rw [countIn_def, countIn_def]
  refine List.countP_mono_left ?_
  intro p hp hpred
  simp only [beq_iff_eq] at hpred ⊢
  exact hph3.2 p.1 p.2 hpred

/-- C1 (amended): the limit is satisfied for every water-set color other
than the black fallback — for such a color the excess loop rewrites every
excess cell to a different color and no other color's loop can push it back
over budget; black (the unbudgeted fallback target) and land colors (whose
excess loop stops when all budgets are exhausted, see the counterexample)
may exceed their quantities. -/
theorem claim_C1_water_limit (cfg : Config) (grid : Grid) (hx : String)
    (hwat : hx ∈ WATER_HEXES cfg)
    (hblk : colorByName cfg "black" ≠ some hx) :
    usageOf (fixGridLimits cfg grid) hx ≤ (limitsOf cfg hx).getD 0 := by
  obtain ⟨hlen, hrow⟩ := fixGridLimits_sameShape cfg grid
  have husage : usageOf (fixGridLimits cfg grid) hx =
      (positionsOf (fixGridLimits cfg grid) grid.length
        ((grid.headD []).length) hx).length := by
    unfold usageOf
    rw [hlen]
    congr 2
    rw [headD_eq_getD, headD_eq_getD, hrow 0]
  rw [husage]
  rcases fixGridLimits_shape cfg grid with ⟨heq, hfilter⟩ |
    ⟨lN, eN, rem1, over, heq, hperm, hrem⟩
  · rw [heq]
    by_cases hzero :
        (positionsOf grid grid.length (grid.headD []).length hx).length = 0
    · rw [hzero]
      exact Nat.zero_le _
    · have hpres := mem_colorsPresent_of_pos (Nat.pos_of_ne_zero hzero)
      have hno := List.filter_eq_nil.mp hfilter hx hpres
      simp only [decide_eq_true_eq, not_not] at hno
      exact hno
  · rw [heq]
    by_cases hover : hx ∈ over
    · obtain ⟨l1, l2, hsplit⟩ := List.append_of_mem hover
      have h0 : rem1 hx = 0 := by
        have hxf := hperm.mem_iff.mp hover
        have hxpres := List.mem_of_mem_filter hxf
        have hxnot := List.of_mem_filter hxf
        simp only [decide_eq_true_eq] at hxnot
        rw [hrem hx, if_pos hxpres, if_neg hxnot]
      rw [hsplit]
      exact foldl_processColor_over_bound cfg grid grid.length
        (grid.headD []).length lN eN hx (contains_eq_true_iff.mpr hwat) hblk
        l1 l2 (grid, rem1) h0 (fun r c hc => hc)
    · have hK := foldl_processColor_K cfg grid grid.length
        (grid.headD []).length lN eN hx hblk over (grid, rem1)
      dsimp only at hK
      have hbound :
          (positionsOf grid grid.length (grid.headD []).length hx).length +
            rem1 hx ≤ (limitsOf cfg hx).getD 0 := by
        rw [hrem hx]
        by_cases hpres :
            hx ∈ colorsPresent grid grid.length (grid.headD []).length
        · rw [if_pos hpres]
          by_cases hle :
              (positionsOf grid grid.length
                (grid.headD []).length hx).length ≤
                (limitsOf cfg hx).getD 0
          · rw [if_pos hle]
            omega
          · exfalso
            exact hover (hperm.mem_iff.mpr (List.mem_filter.mpr
              ⟨hpres, decide_eq_true hle⟩))
        · rw [if_neg hpres]
          have hzero :
              (positionsOf grid grid.length
                (grid.headD []).length hx).length = 0 := by
            by_contra hnz
            exact hpres (mem_colorsPresent_of_pos (Nat.pos_of_ne_zero hnz))
          omega
      omega

/-- C1 witness: the amended theorem applied to the demo palette and the demo
grid at the dark-blue water hex. -/
theorem claim_C1_water_limit_witness :
    "#0000AA" ∈ WATER_HEXES cfgDemo ∧
      usageOf (fixGridLimits cfgDemo gridDemo) "#0000AA" ≤
        (limitsOf cfgDemo "#0000AA").getD 0 :=
  ⟨by decide, claim_C1_water_limit cfgDemo gridDemo "#0000AA" (by decide)
    (by decide)⟩

/-! ### BFS geometry: neighbor entries and Manhattan distance -/

/-- A finite `getD` read is in range. -/
theorem getD_some_lt {dist : List (Option ℕ)} {i : ℕ} {v : ℕ}
    (h : dist.getD i none = some v) : i < dist.length := by
  by_contra hge
  rw [List.getD_eq_getElem?_getD, List.getElem?_eq_none (by omega)] at h
  cases h

/-- Reading a just-written field cell. -/
theorem getD_set_self_opt (dist : List (Option ℕ)) (k : ℕ)
    (hk : k < dist.length) (v : Option ℕ) :
    (dist.set k v).getD k none = v := by
  rw [List.getD_eq_getElem?_getD, List.getElem?_set_self hk, Option.getD_some]

/-- Reading another field cell after a write. -/
theorem getD_set_ne_opt (dist : List (Option ℕ)) (k i : ℕ) (v : Option ℕ)
    (hne : i ≠ k) :
    (dist.set k v).getD i none = dist.getD i none := by
  rw [List.getD_eq_getElem?_getD, List.getD_eq_getElem?_getD,
    List.getElem?_set_ne (Ne.symm hne)]

/-- Filling an `Infinity` cell lowers the `Infinity` count by one. -/
theorem countNone_set (dist : List (Option ℕ)) (k : ℕ) (x : ℕ)
    (hk : dist.getD k none = none) (hkl : k < dist.length) :
    countNone (dist.set k (some x)) + 1 = countNone dist := by
  induction dist generalizing k with
  | nil => simp at hkl
  | cons a t ih =>
    cases k with
    | zero =>
      have ha : a = none := by simpa using hk
      subst ha
      simp [countNone, List.countP_cons]
    | succ k' =>
      have hk' : t.getD k' none = none := by simpa using hk
      have hkl' : k' < t.length := by simpa using hkl
      have ht := ih k' hk' hkl'

      simp only [countNone, List.set, List.countP_cons] at ht ⊢
      omega

/-- `(w*y + x) % w = x` for an in-range column. -/
theorem idx_mod (w x y : ℕ) (hx : x < w) : (w * y + x) % w = x := by
  rw [Nat.mul_add_mod, Nat.mod_eq_of_lt hx]

/-- `(w*y + x) / w = y` for an in-range column. -/
theorem idx_div (w x y : ℕ) (hw : 0 < w) (hx : x < w) : (w * y + x) / w = y := by
  rw [Nat.mul_add_div hw, Nat.div_eq_of_lt hx, Nat.add_zero]

/-- Width is positive around any in-range index. -/
theorem w_pos_of_lt {w h idx : ℕ} (hidx : idx < w * h) : 0 < w := by
  rcases Nat.eq_zero_or_pos w with h0 | h0
  · rw [h0, Nat.zero_mul] at hidx
    omega
  · exact h0

/-- Row index of an in-range cell is in range. -/
theorem div_lt_of_lt {w h idx : ℕ} (hidx : idx < w * h) : idx / w < h := by
  have hw := w_pos_of_lt hidx
  rw [Nat.div_lt_iff_lt_mul hw]
  exact Nat.lt_of_lt_of_eq hidx (Nat.mul_comm w h)

/-- The neighbor-candidate list with the `cy` abbreviation resolved. -/
theorem neighborIdxs_eq (w h idx : ℕ) (hw : 0 < w) :
    neighborIdxs w h idx =
      [if 0 < idx / w then (idx : ℤ) - w else -1,
       if idx / w < h - 1 then (idx : ℤ) + w else -1,
       if 0 < idx % w then (idx : ℤ) - 1 else -1,
       if idx % w < w - 1 then (idx : ℤ) + 1 else -1] := by
  have hsub : idx - idx % w = w * (idx / w) := by
    have := Nat.div_add_mod idx w
    omega
  simp only [neighborIdxs]
  rw [hsub, Nat.mul_div_cancel_left _ hw]

/-- A nonnegative neighbor entry is one of the four directional moves with
its guard satisfied. -/
theorem mem_neighborIdxs_elim {w h idx : ℕ} {z : ℤ} (hidx : idx < w * h)
    (hz : z ∈ neighborIdxs w h idx) (hznn : 0 ≤ z) :
    (z = (idx : ℤ) - w ∧ 0 < idx / w) ∨
      (z = (idx : ℤ) + w ∧ idx / w < h - 1) ∨
      (z = (idx : ℤ) - 1 ∧ 0 < idx % w) ∨
      (z = (idx : ℤ) + 1 ∧ idx % w < w - 1) := by
  have hw := w_pos_of_lt hidx
  rw [neighborIdxs_eq w h idx hw] at hz
  simp only [List.mem_cons, List.not_mem_nil, or_false] at hz
  rcases hz with hz | hz | hz | hz
  · by_cases hc : 0 < idx / w
    · rw [if_pos hc] at hz
      exact Or.inl ⟨hz, hc⟩
    · rw [if_neg hc] at hz
      subst hz
      omega
  · by_cases hc : idx / w < h - 1
    · rw [if_pos hc] at hz
      exact Or.inr (Or.inl ⟨hz, hc⟩)
    · rw [if_neg hc] at hz
      subst hz
      omega
  · by_cases hc : 0 < idx % w
    · rw [if_pos hc] at hz
      exact Or.inr (Or.inr (Or.inl ⟨hz, hc⟩))
    · rw [if_neg hc] at hz
      subst hz
      omega
  · by_cases hc : idx % w < w - 1
    · rw [if_pos hc] at hz
      exact Or.inr (Or.inr (Or.inr ⟨hz, hc⟩))
    · rw [if_neg hc] at hz
      subst hz
      omega

/-- Facts about the upward neighbor `idx - w`. -/
theorem nbr_up {w h idx : ℕ} (hidx : idx < w * h) (hc : 0 < idx / w) :
    w ≤ idx ∧ ((idx : ℤ) - w).toNat = idx - w ∧ idx - w < w * h ∧
      idx - w ≠ idx ∧ (idx - w) % w = idx % w ∧
      (idx - w) / w = idx / w - 1 := by
  have hw := w_pos_of_lt hidx
  have hdm := Nat.div_add_mod idx w
  have hx : idx % w < w := Nat.mod_lt _ hw
  have hmp : w * (idx / w - 1) = w * (idx / w) - w := by
    have := Nat.mul_pred w (idx / w)
    simpa using this
  have hwle : w ≤ w * (idx / w) := Nat.le_mul_of_pos_right w hc
  have hsub : idx - w = w * (idx / w - 1) + idx % w := by omega
  refine ⟨by omega, by omega, by omega, by omega, ?_, ?_⟩
  · rw [hsub, idx_mod w (idx % w) (idx / w - 1) hx]
  · rw [hsub, idx_div w (idx % w) (idx / w - 1) hw hx]

/-- Facts about the downward neighbor `idx + w`. -/
theorem nbr_down {w h idx : ℕ} (hidx : idx < w * h) (hc : idx / w < h - 1) :
    ((idx : ℤ) + w).toNat = idx + w ∧ idx + w < w * h ∧ idx + w ≠ idx ∧
      (idx + w) % w = idx % w ∧ (idx + w) / w = idx / w + 1 := by
  have hw := w_pos_of_lt hidx
  have hdm := Nat.div_add_mod idx w
  have hx : idx % w < w := Nat.mod_lt _ hw
  have hms : w * (idx / w + 1) = w * (idx / w) + w := Nat.mul_succ w (idx / w)
  have hsub : idx + w = w * (idx / w + 1) + idx % w := by omega
  have hhb : w * (idx / w + 1) ≤ w * (h - 1) :=
    Nat.mul_le_mul_left w (by omega)
  have hhp : w * (h - 1) = w * h - w := by
    have := Nat.mul_pred w h
    simpa using this
  refine ⟨by omega, by omega, by omega, ?_, ?_⟩
  · rw [hsub, idx_mod w (idx % w) (idx / w + 1) hx]
  · rw [hsub, idx_div w (idx % w) (idx / w + 1) hw hx]

/-- Facts about the left neighbor `idx - 1`. -/
theorem nbr_left {w h idx : ℕ} (hidx : idx < w * h) (hc : 0 < idx % w) :
    1 ≤ idx ∧ ((idx : ℤ) - 1).toNat = idx - 1 ∧ idx - 1 < w * h ∧
      idx - 1 ≠ idx ∧ (idx - 1) % w = idx % w - 1 ∧
      (idx - 1) / w = idx / w := by
  have hw := w_pos_of_lt hidx
  have hdm := Nat.div_add_mod idx w
  have hx : idx % w < w := Nat.mod_lt _ hw
  have hsub : idx - 1 = w * (idx / w) + (idx % w - 1) := by omega
  refine ⟨by omega, by omega, by omega, by omega, ?_, ?_⟩
  · rw [hsub, idx_mod w (idx % w - 1) (idx / w) (by omega)]
  · rw [hsub, idx_div w (idx % w - 1) (idx / w) hw (by omega)]

/-- Facts about the right neighbor `idx + 1`. -/
theorem nbr_right {w h idx : ℕ} (hidx : idx < w * h) (hc : idx % w < w - 1) :
    ((idx : ℤ) + 1).toNat = idx + 1 ∧ idx + 1 < w * h ∧ idx + 1 ≠ idx ∧
      (idx + 1) % w = idx % w + 1 ∧ (idx + 1) / w = idx / w := by
  have hw := w_pos_of_lt hidx
  have hdm := Nat.div_add_mod idx w
  have hx : idx % w < w := Nat.mod_lt _ hw
  have hy : idx / w < h := div_lt_of_lt hidx
  have hsub : idx + 1 = w * (idx / w) + (idx % w + 1) := by omega
  have hhb : w * (idx / w + 1) ≤ w * h := Nat.mul_le_mul_left w (by omega)
  have hms : w * (idx / w + 1) = w * (idx / w) + w := Nat.mul_succ w (idx / w)
  refine ⟨by omega, by omega, by omega, ?_, ?_⟩
  · rw [hsub, idx_mod w (idx % w + 1) (idx / w) (by omega)]
  · rw [hsub, idx_div w (idx % w + 1) (idx / w) hw (by omega)]

/-- A valid neighbor is an in-range cell other than the center. -/
theorem nbr_valid {w h idx : ℕ} {z : ℤ} (hidx : idx < w * h)
    (hz : z ∈ neighborIdxs w h idx) (hznn : 0 ≤ z) :
    z.toNat < w * h ∧ z.toNat ≠ idx := by
  rcases mem_neighborIdxs_elim hidx hz hznn with ⟨hzv, hc⟩ | ⟨hzv, hc⟩ |
    ⟨hzv, hc⟩ | ⟨hzv, hc⟩
  · obtain ⟨_, ht, hlt, hne, _, _⟩ := nbr_up hidx hc
    rw [hzv, ht]
    exact ⟨hlt, hne⟩
  · obtain ⟨ht, hlt, hne, _, _⟩ := nbr_down hidx hc
    rw [hzv, ht]
    exact ⟨hlt, hne⟩
  · obtain ⟨_, ht, hlt, hne, _, _⟩ := nbr_left hidx hc
    rw [hzv, ht]
    exact ⟨hlt, hne⟩
  · obtain ⟨ht, hlt, hne, _, _⟩ := nbr_right hidx hc
    rw [hzv, ht]
    exact ⟨hlt, hne⟩

/-- Manhattan distance changes by at most one across a neighbor move. -/
theorem manhattan_nbr_le {w h idx : ℕ} {z : ℤ} (hidx : idx < w * h)
    (hz : z ∈ neighborIdxs w h idx) (hznn : 0 ≤ z) (j : ℕ) :
    manhattan w z.toNat j ≤ manhattan w idx j + 1 ∧
      manhattan w idx j ≤ manhattan w z.toNat j + 1 := by
  rcases mem_neighborIdxs_elim hidx hz hznn with ⟨hzv, hc⟩ | ⟨hzv, hc⟩ |
    ⟨hzv, hc⟩ | ⟨hzv, hc⟩
  · obtain ⟨_, ht, _, _, hm, hd⟩ := nbr_up hidx hc
    rw [hzv, ht]
    unfold manhattan natDist
    rw [hm, hd]
    omega
  · obtain ⟨ht, _, _, hm, hd⟩ := nbr_down hidx hc
    rw [hzv, ht]
    unfold manhattan natDist
    rw [hm, hd]
    omega
  · obtain ⟨_, ht, _, _, hm, hd⟩ := nbr_left hidx hc
    rw [hzv, ht]
    unfold manhattan natDist
    rw [hm, hd]
    omega
  · obtain ⟨ht, _, _, hm, hd⟩ := nbr_right hidx hc
    rw [hzv, ht]
    unfold manhattan natDist
    rw [hm, hd]
    omega

/-- The neighbor relation is symmetric. -/
theorem nbr_symm {w h idx : ℕ} {z : ℤ} (hidx : idx < w * h)
    (hz : z ∈ neighborIdxs w h idx) (hznn : 0 ≤ z) :
    (idx : ℤ) ∈ neighborIdxs w h z.toNat := by
  have hw := w_pos_of_lt hidx
  have hy : idx / w < h := div_lt_of_lt hidx
  rcases mem_neighborIdxs_elim hidx hz hznn with ⟨hzv, hc⟩ | ⟨hzv, hc⟩ |
    ⟨hzv, hc⟩ | ⟨hzv, hc⟩
  · obtain ⟨hwle, ht, _, _, hm, hd⟩ := nbr_up hidx hc
    rw [hzv, ht, neighborIdxs_eq w h (idx - w) hw]
    have hcond : (idx - w) / w < h - 1 := by
      rw [hd]
      omega
    simp only [List.mem_cons]
    right; left
    rw [if_pos hcond]
    omega
  · obtain ⟨ht, _, _, hm, hd⟩ := nbr_down hidx hc
    rw [hzv, ht, neighborIdxs_eq w h (idx + w) hw]
    have hcond : 0 < (idx + w) / w := by
      rw [hd]
      exact Nat.succ_pos _
    simp only [List.mem_cons]
    left
    rw [if_pos hcond]
    omega
  · obtain ⟨h1le, ht, _, _, hm, hd⟩ := nbr_left hidx hc
    rw [hzv, ht, neighborIdxs_eq w h (idx - 1) hw]
    have hx : idx % w < w := Nat.mod_lt _ hw
    have hcond : (idx - 1) % w < w - 1 := by
      rw [hm]
      omega
    simp only [List.mem_cons]
    right; right; right; left
    rw [if_pos hcond]
    omega
  · obtain ⟨ht, _, _, hm, hd⟩ := nbr_right hidx hc
    rw [hzv, ht, neighborIdxs_eq w h (idx + 1) hw]
    have hcond : 0 < (idx + 1) % w := by
      rw [hm]
      exact Nat.succ_pos _
    simp only [List.mem_cons]
    right; right; left
    rw [if_pos hcond]
    omega

/-- Cells at distance zero coincide. -/
theorem manhattan_eq_zero {w h i j : ℕ} (hi : i < w * h) (hj : j < w * h)
    (h0 : manhattan w i j = 0) : i = j := by
  have hdi := Nat.div_add_mod i w
  have hdj := Nat.div_add_mod j w
  unfold manhattan natDist at h0
  have hxeq : i % w = j % w := by omega
  have hyeq : i / w = j / w := by omega
  rw [hxeq, hyeq] at hdi
  omega

/-- A positive-distance cell has a neighbor strictly closer to the target. -/
theorem exists_nbr_closer {w h i j : ℕ} (hi : i < w * h) (hj : j < w * h)
    (hne : manhattan w i j ≠ 0) :
    ∃ z ∈ neighborIdxs w h i, 0 ≤ z ∧ z.toNat < w * h ∧
      manhattan w z.toNat j + 1 = manhattan w i j := by
  have hw := w_pos_of_lt hi
  have hxj : j % w < w := Nat.mod_lt _ hw
  have hyj : j / w < h := div_lt_of_lt hj
  have hyi : i / w < h := div_lt_of_lt hi
  rcases Nat.lt_trichotomy (i % w) (j % w) with hcx | hcx | hcx
  · have hc : i % w < w - 1 := by omega
    obtain ⟨ht, hlt, _, hm, hd⟩ := nbr_right hi hc
    refine ⟨(i : ℤ) + 1, ?_, by omega, ?_, ?_⟩
    · rw [neighborIdxs_eq w h i hw]
      simp only [List.mem_cons]
      right; right; right; left
      rw [if_pos hc]
    · rw [ht]
      exact hlt
    · rw [ht]
      unfold manhattan natDist
      rw [hm, hd]
      omega
  · rcases Nat.lt_trichotomy (i / w) (j / w) with hcy | hcy | hcy
    · have hc : i / w < h - 1 := by omega
      obtain ⟨ht, hlt, _, hm, hd⟩ := nbr_down hi hc
      refine ⟨(i : ℤ) + w, ?_, by omega, ?_, ?_⟩
      · rw [neighborIdxs_eq w h i hw]
        simp only [List.mem_cons]
        right; left
        rw [if_pos hc]
      · rw [ht]
        exact hlt
      · rw [ht]
        unfold manhattan natDist
        rw [hm, hd]
        omega
    · exfalso
      apply hne
      unfold manhattan natDist
      omega
    · have hc : 0 < i / w := Nat.lt_of_le_of_lt (Nat.zero_le _) hcy
      obtain ⟨hwle, ht, hlt, _, hm, hd⟩ := nbr_up hi hc
      refine ⟨(i : ℤ) - w, ?_, by omega, ?_, ?_⟩
      · rw [neighborIdxs_eq w h i hw]
        simp only [List.mem_cons]
        left
        rw [if_pos hc]
      · rw [ht]
        exact hlt
      · rw [ht]
        unfold manhattan natDist
        rw [hm, hd]
        omega
  · have hc : 0 < i % w := by omega
    obtain ⟨h1le, ht, hlt, _, hm, hd⟩ := nbr_left hi hc
    refine ⟨(i : ℤ) - 1, ?_, by omega, ?_, ?_⟩
    · rw [neighborIdxs_eq w h i hw]
      simp only [List.mem_cons]
      right; right; left
      rw [if_pos hc]
    · rw [ht]
      exact hlt
    · rw [ht]
      unfold manhattan natDist
      rw [hm, hd]
      omega

/-- `manhattan` is reflexive-zero. -/
theorem manhattan_self (w i : ℕ) : manhattan w i i = 0 := by
  unfold manhattan natDist
  omega

/-- An in-range `get?` read returns the `getD` value. -/
theorem get?_eq_some_getD {dist : List (Option ℕ)} {k : ℕ}
    (hk : k < dist.length) :
    dist.get? k = some (dist.getD k none) := by
  rw [List.get?_eq_getElem?, List.getD_eq_getElem?_getD,
    List.getElem?_eq_getElem hk]
  rfl

/-- A relaxation never lowers a cell already at or below the written level. -/
theorem relaxNbr_finite_stable (ds : ℕ) (st : List (Option ℕ) × List ℕ)
    (z : ℤ) (i u : ℕ) (hu : u ≤ ds + 1)
    (hi : st.1.getD i none = some u) :
    (relaxNbr (some (ds + 1)) st z).1.getD i none = some u := by
  unfold relaxNbr
  by_cases hz : 0 ≤ z
  · rw [if_pos hz]
    cases hget : st.1.get? z.toNat with
    | none => exact hi
    | some cell =>
      dsimp only
      by_cases hlt : distLtB (some (ds + 1)) cell = true
      · rw [if_pos hlt]
        have hne : i ≠ z.toNat := by
          intro heq
          subst heq
          have hcell : cell = some u := by
            rw [List.getD_eq_getElem?_getD] at hi
            rw [List.get?_eq_getElem?] at hget
            rw [hget] at hi
            simpa using hi
          subst hcell
          simp only [distLtB, decide_eq_true_eq] at hlt
          omega
        dsimp only
        rw [getD_set_ne_opt _ _ _ _ hne]
        exact hi
      · rw [if_neg hlt]
        exact hi
  · rw [if_neg hz]
    exact hi

/-- Stability of at-level cells through a sequence of relaxations. -/
theorem relaxFold_finite_stable (ds : ℕ) :
    ∀ (l : List ℤ) (st : List (Option ℕ) × List ℕ) (i u : ℕ), u ≤ ds + 1 →
      st.1.getD i none = some u →
      (l.foldl (relaxNbr (some (ds + 1))) st).1.getD i none = some u := by
  intro l
  induction l with
  | nil => intro st i u _ hi; exact hi
  | cons z rest ih =>
    intro st i u hu hi
    rw [List.foldl_cons]
    exact ih _ i u hu (relaxNbr_finite_stable ds st z i u hu hi)

/-- The complete analysis of the neighbor-relaxation fold of one BFS
iteration: shape, the pointwise write discipline, the pushed entries, exact
`Infinity` bookkeeping, and full relaxation of every processed neighbor. -/
theorem relaxFold (w h idx ds : ℕ) (dist0 : List (Option ℕ))
    (hidx : idx < w * h)
    (hbound0 : ∀ i v, dist0.getD i none = some v → v ≤ ds + 1) :
    ∀ (l : List ℤ), (∀ z ∈ l, z ∈ neighborIdxs w h idx) →
    ∀ (st : List (Option ℕ) × List ℕ),
      st.1.length = w * h →
      (∀ i, st.1.getD i none = dist0.getD i none ∨
        (dist0.getD i none = none ∧ st.1.getD i none = some (ds + 1) ∧
          i ∈ st.2)) →
      (∀ p ∈ st.2, p < w * h ∧ st.1.getD p none = some (ds + 1) ∧
        ∃ z ∈ neighborIdxs w h idx, 0 ≤ z ∧ z.toNat = p) →
      countNone st.1 + st.2.length = countNone dist0 →
      (l.foldl (relaxNbr (some (ds + 1))) st).1.length = w * h ∧
      (∀ i, (l.foldl (relaxNbr (some (ds + 1))) st).1.getD i none =
          dist0.getD i none ∨
        (dist0.getD i none = none ∧
          (l.foldl (relaxNbr (some (ds + 1))) st).1.getD i none =
            some (ds + 1) ∧
          i ∈ (l.foldl (relaxNbr (some (ds + 1))) st).2)) ∧
      (∀ p ∈ (l.foldl (relaxNbr (some (ds + 1))) st).2, p < w * h ∧
        (l.foldl (relaxNbr (some (ds + 1))) st).1.getD p none =
          some (ds + 1) ∧
        ∃ z ∈ neighborIdxs w h idx, 0 ≤ z ∧ z.toNat = p) ∧
      countNone (l.foldl (relaxNbr (some (ds + 1))) st).1 +
        (l.foldl (relaxNbr (some (ds + 1))) st).2.length = countNone dist0 ∧
      (∀ z ∈ l, 0 ≤ z → ∃ u,
        (l.foldl (relaxNbr (some (ds + 1))) st).1.getD z.toNat none =
          some u ∧ u ≤ ds + 1) := by
  intro l
  induction l with
  | nil =>
    intro _ st hlen hpt hpush hcnt
    exact ⟨hlen, hpt, hpush, hcnt, fun z hz => absurd hz (List.not_mem_nil z)⟩
  | cons z rest ih =>
    intro hml st hlen hpt hpush hcnt
    have hz : z ∈ neighborIdxs w h idx := hml z (List.mem_cons_self z rest)
    have hml' : ∀ y ∈ rest, y ∈ neighborIdxs w h idx :=
      fun y hy => hml y (List.mem_cons_of_mem z hy)
    rw [List.foldl_cons]
    by_cases hznn : 0 ≤ z
    · have hvalid := nbr_valid hidx hz hznn
      have hltlen : z.toNat < st.1.length := by
        rw [hlen]
        exact hvalid.1
      cases hcell : st.1.getD z.toNat none with
      | some u =>
        -- the neighbor already holds a finite value ≤ ds+1: no write
        have hub : u ≤ ds + 1 := by
          rcases hpt z.toNat with hsame | ⟨_, hval, _⟩
          · exact hbound0 z.toNat u (hsame ▸ hcell)
          · rw [hcell] at hval
            exact le_of_eq (Option.some.inj hval)
        have hskip : relaxNbr (some (ds + 1)) st z = st := by
          unfold relaxNbr
          rw [if_pos hznn, get?_eq_some_getD hltlen, hcell]
          dsimp only
          have hfalse : distLtB (some (ds + 1)) (some u) = false := by
            simp only [distLtB, decide_eq_false_iff_not]
            omega
          rw [hfalse]
          rfl
        rw [hskip]
        obtain ⟨ha, hb, hc, hd, he⟩ := ih hml' st hlen hpt hpush hcnt
        refine ⟨ha, hb, hc, hd, ?_⟩
        intro y hy hynn
        rcases List.mem_cons.mp hy with rfl | hy'
        · exact ⟨u, relaxFold_finite_stable ds rest st y.toNat u hub hcell, hub⟩
        · exact he y hy' hynn
      | none =>
        -- Infinity neighbor: write and push
        have hwrite : relaxNbr (some (ds + 1)) st z =
            (st.1.set z.toNat (some (ds + 1)), st.2 ++ [z.toNat]) := by
          unfold relaxNbr
          rw [if_pos hznn, get?_eq_some_getD hltlen, hcell]
          rfl
        rw [hwrite]
        have hd0 : dist0.getD z.toNat none = none := by
          rcases hpt z.toNat with hsame | ⟨_, hval, _⟩
          · rw [← hsame]
            exact hcell
          · rw [hcell] at hval
            cases hval
        have hlen1 : (st.1.set z.toNat (some (ds + 1))).length = w * h := by
          rw [List.length_set]
          exact hlen
        have hpt1 : ∀ i,
            (st.1.set z.toNat (some (ds + 1))).getD i none =
              dist0.getD i none ∨
            (dist0.getD i none = none ∧
              (st.1.set z.toNat (some (ds + 1))).getD i none =
                some (ds + 1) ∧ i ∈ st.2 ++ [z.toNat]) := by
          intro i
          by_cases hi : i = z.toNat
          · subst hi
            right
            refine ⟨hd0, getD_set_self_opt _ _ hltlen _, ?_⟩
            exact List.mem_append_right _ (List.mem_singleton.mpr rfl)
          · rw [getD_set_ne_opt _ _ _ _ hi]
            rcases hpt i with hsame | ⟨h1, h2, h3⟩
            · exact Or.inl hsame
            · exact Or.inr ⟨h1, h2, List.mem_append_left _ h3⟩
        have hpush1 : ∀ p ∈ st.2 ++ [z.toNat], p < w * h ∧
            (st.1.set z.toNat (some (ds + 1))).getD p none = some (ds + 1) ∧
            ∃ y ∈ neighborIdxs w h idx, 0 ≤ y ∧ y.toNat = p := by
          intro p hp
          rcases List.mem_append.mp hp with hp' | hp'
          · obtain ⟨hpb, hpl, hpo⟩ := hpush p hp'
            have hpne : p ≠ z.toNat := by
              intro heq
              rw [heq, hcell] at hpl
              cases hpl
            rw [getD_set_ne_opt _ _ _ _ hpne]
            exact ⟨hpb, hpl, hpo⟩
          · rw [List.mem_singleton.mp hp']
            exact ⟨hvalid.1, getD_set_self_opt _ _ hltlen _,
              ⟨z, hz, hznn, rfl⟩⟩
        have hcnt1 : countNone (st.1.set z.toNat (some (ds + 1))) +
            (st.2 ++ [z.toNat]).length = countNone dist0 := by
          have := countNone_set st.1 z.toNat (ds + 1) hcell hltlen
          rw [List.length_append, List.length_singleton]
          omega
        obtain ⟨ha, hb, hc, hd, he⟩ := ih hml'
          (st.1.set z.toNat (some (ds + 1)), st.2 ++ [z.toNat])
          hlen1 hpt1 hpush1 hcnt1
        refine ⟨ha, hb, hc, hd, ?_⟩
        intro y hy hynn
        rcases List.mem_cons.mp hy with rfl | hy'
        · refine ⟨ds + 1, ?_, le_refl _⟩
          exact relaxFold_finite_stable ds rest _ y.toNat (ds + 1) (le_refl _)
            (getD_set_self_opt _ _ hltlen _)
        · exact he y hy' hynn
    · have hid : relaxNbr (some (ds + 1)) st z = st := by
        unfold relaxNbr
        rw [if_neg hznn]
      rw [hid]
      obtain ⟨ha, hb, hc, hd, he⟩ := ih hml' st hlen hpt hpush hcnt
      refine ⟨ha, hb, hc, hd, ?_⟩
      intro y hy hynn
      rcases List.mem_cons.mp hy with rfl | hy'
      · exact absurd hynn hznn
      · exact he y hy' hynn

/-- Popping the queue head normalizes the two-level structure: the head's
label becomes the current level. -/
theorem twoLevel_pop {dist : List (Option ℕ)} {idx : ℕ} {rest : List ℕ}
    {d : ℕ} (h : TwoLevelQ dist (idx :: rest) d)
    (hbound : ∀ i v, dist.getD i none = some v → v ≤ d + 1) :
    ∃ ds, dist.getD idx none = some ds ∧ TwoLevelQ dist rest ds ∧
      ∀ i v, dist.getD i none = some v → v ≤ ds + 1 := by
  obtain ⟨q1, q2, hq, h1, h2⟩ := h
  cases q1 with
  | nil =>
    cases q2 with
    | nil => simp at hq
    | cons a q2' =>
      rw [List.nil_append] at hq
      injection hq with h3 h4
      subst h3
      subst h4
      refine ⟨d + 1, h2 idx (List.mem_cons_self _ _),
        ⟨rest, [], by simp, fun i hi => h2 i (List.mem_cons_of_mem _ hi),
          fun i hi => absurd hi (List.not_mem_nil i)⟩,
        fun i v hv => Nat.le_succ_of_le (hbound i v hv)⟩
  | cons a q1' =>
    rw [List.cons_append] at hq
    injection hq with h3 h4
    subst h3
    subst h4
    exact ⟨d, h1 idx (List.mem_cons_self _ _),
      ⟨q1', q2, rfl, fun i hi => h1 i (List.mem_cons_of_mem _ hi), h2⟩,
      hbound⟩

/-- One BFS iteration preserves the loop invariant and decreases the
`Infinity`-plus-queue measure by exactly one. -/
theorem bfsInv_step (mask : List Bool) (w h : ℕ) (fromTrue : Bool)
    (dist : List (Option ℕ)) (idx : ℕ) (rest : List ℕ)
    (hinv : BfsInv mask w h fromTrue dist (idx :: rest)) :
    BfsInv mask w h fromTrue (bfsStep w h dist idx).1
      (rest ++ (bfsStep w h dist idx).2) ∧
    countNone (bfsStep w h dist idx).1 +
        (rest ++ (bfsStep w h dist idx).2).length + 1 =
      countNone dist + (idx :: rest).length := by
  obtain ⟨hlen, hqb, ⟨d, htl, hbound⟩, hsrc, hsound, hI3⟩ := hinv
  have hidx : idx < w * h := hqb idx (List.mem_cons_self _ _)
  obtain ⟨ds, hlab, htl', hbound'⟩ := twoLevel_pop htl hbound
  have hstep : bfsStep w h dist idx =
      (neighborIdxs w h idx).foldl (relaxNbr (some (ds + 1))) (dist, []) := by
    unfold bfsStep
    rw [hlab]
    rfl
  rw [hstep]
  obtain ⟨ha, hb, hc, hd2, he⟩ := relaxFold w h idx ds dist hidx hbound'
    (neighborIdxs w h idx) (fun z hz => hz) (dist, []) hlen
    (fun i => Or.inl rfl) (fun p hp => absurd hp (List.not_mem_nil p))
    (by simp)
  constructor
  · refine ⟨ha, ?_, ⟨ds, ?_, ?_⟩, ?_, ?_, ?_⟩
    · -- queue bounds
      intro p hp
      rcases List.mem_append.mp hp with hp' | hp'
      · exact hqb p (List.mem_cons_of_mem _ hp')
      · exact (hc p hp').1
    · -- two-level at level ds
      obtain ⟨q1, q2, hqe, hq1, hq2⟩ := htl'
      refine ⟨q1, q2 ++ ((neighborIdxs w h idx).foldl
          (relaxNbr (some (ds + 1))) (dist, [])).2, ?_, ?_, ?_⟩
      · rw [hqe, List.append_assoc]
      · intro p hp
        rcases hb p with hsame | ⟨hnone, _, _⟩
        · rw [hsame]
          exact hq1 p hp
        · rw [hq1 p hp] at hnone
          cases hnone
      · intro p hp
        rcases List.mem_append.mp hp with hp' | hp'
        · rcases hb p with hsame | ⟨hnone, hval, _⟩
          · rw [hsame]
            exact hq2 p hp'
          · rw [hq2 p hp'] at hnone
            cases hnone
        · exact (hc p hp').2.1
    · -- value bound at level ds
      intro i v hv
      rcases hb i with hsame | ⟨_, hval, _⟩
      · exact hbound' i v (hsame ▸ hv)
      · rw [hv] at hval
        exact le_of_eq (Option.some.inj hval)
    · -- sources stay at 0
      intro j hj hsj
      rcases hb j with hsame | ⟨hnone, _, _⟩
      · rw [hsame]
        exact hsrc j hj hsj
      · rw [hsrc j hj hsj] at hnone
        cases hnone
    · -- soundness
      intro i v hv
      rcases hb i with hsame | ⟨hnone, hval, hmem⟩
      · exact hsound i v (hsame ▸ hv)
      · obtain ⟨z, hz, hznn, htn⟩ := (hc i hmem).2.2
        obtain ⟨j, hj, hsj, hman⟩ := hsound idx ds hlab
        refine ⟨j, hj, hsj, ?_⟩
        have hlip := (manhattan_nbr_le hidx hz hznn j).1
        rw [htn] at hlip
        rw [hv] at hval
        have hveq : v = ds + 1 := Option.some.inj hval
        omega
    · -- relaxed-or-queued
      intro i v hv z hz hznn
      rcases hb i with hsame | ⟨hnone, hval, hmem⟩
      · -- cell untouched this iteration
        have hv0 : dist.getD i none = some v := hsame ▸ hv
        rcases hI3 i v hv0 z hz hznn with ⟨u, hu, hule⟩ | hqmem
        · -- neighbor was already relaxed; it kept its label
          left
          refine ⟨u, ?_, hule⟩
          rcases hb z.toNat with hsame' | ⟨hnone', _, _⟩
          · rw [hsame']
            exact hu
          · rw [hu] at hnone'
            cases hnone'
        · rcases List.mem_cons.mp hqmem with rfl | hrest
          · -- the popped cell: all its neighbors were just relaxed
            left
            obtain ⟨u, hu, hule⟩ := he z hz hznn
            have hveq : v = ds := by
              have := hsame ▸ hv
              rw [hlab] at this
              exact (Option.some.inj this).symm
            exact ⟨u, hu, by omega⟩
          · right
            exact List.mem_append_left _ hrest
      · -- freshly written cell: it is queued
        right
        exact List.mem_append_right _ hmem
  · -- exact measure bookkeeping
    rw [List.length_append, List.length_cons]
    omega

/-- Running the BFS loop from any invariant state with enough fuel drains the
queue and establishes the final-field properties. -/
theorem bfsLoop_final (mask : List Bool) (w h : ℕ) (fromTrue : Bool) :
    ∀ (fuel : ℕ) (dist : List (Option ℕ)) (queue : List ℕ),
      BfsInv mask w h fromTrue dist queue →
      countNone dist + queue.length < fuel →
      BfsFinal mask w h fromTrue (bfsLoop w h fuel dist queue) := by
  intro fuel
  induction fuel with
  | zero =>
    intro dist queue _ hm
    omega
  | succ fuel ih =>
    intro dist queue hinv hm
    cases queue with
    | nil =>
      simp only [bfsLoop]
      obtain ⟨hlen, _, _, hsrc, hsound, hI3⟩ := hinv
      refine ⟨hlen, hsrc, hsound, ?_⟩
      intro i v hv z hz hznn
      rcases hI3 i v hv z hz hznn with hok | hq
      · exact hok
      · exact absurd hq (List.not_mem_nil i)
    | cons idx rest =>
      simp only [bfsLoop]
      obtain ⟨hinv', hcnt⟩ := bfsInv_step mask w h fromTrue dist idx rest hinv
      refine ih _ _ hinv' ?_
      rw [List.length_cons] at hm hcnt
      omega

/-- A count and its complement partition a list's length. -/
theorem countP_add_countP_not {α : Type} (p : α → Bool) (l : List α) :
    l.countP p + l.countP (fun a => !(p a)) = l.length := by
  induction l with
  | nil => rfl
  | cons a t ih =>
    rw [List.countP_cons, List.countP_cons, List.length_cons]
    cases hp : p a <;> simp [hp] <;> omega

/-- Reading the initial distance field. -/
theorem getD_init (n : ℕ) (f : ℕ → Option ℕ) (i : ℕ) :
    ((List.range n).map f).getD i none = if i < n then f i else none := by
  by_cases hi : i < n
  · rw [if_pos hi, List.getD_eq_getElem?_getD, List.getElem?_map,
      List.getElem?_range hi]
    rfl
  · rw [if_neg hi, List.getD_eq_getElem?_getD, List.getElem?_eq_none]
    · rfl
    · rw [List.length_map, List.length_range]
      omega

/-- The initial state of `computeDistanceField` satisfies the loop invariant,
and its measure is exactly the cell count. -/
theorem bfsInit (mask : List Bool) (w h : ℕ) (fromTrue : Bool) :
    BfsInv mask w h fromTrue
      ((List.range (w * h)).map
        (fun i => if isSrc mask fromTrue i then some 0 else none))
      ((List.range (w * h)).filter (isSrc mask fromTrue)) ∧
    countNone ((List.range (w * h)).map
        (fun i => if isSrc mask fromTrue i then some 0 else none)) +
      ((List.range (w * h)).filter (isSrc mask fromTrue)).length = w * h := by
  have hread : ∀ i v,
      ((List.range (w * h)).map
        (fun i => if isSrc mask fromTrue i then some 0 else none)).getD i none =
          some v →
        i < w * h ∧ isSrc mask fromTrue i = true ∧ v = 0 := by
    intro i v hv
    rw [getD_init] at hv
    by_cases hi : i < w * h
    · rw [if_pos hi] at hv
      by_cases hs : isSrc mask fromTrue i
      · rw [if_pos hs] at hv
        exact ⟨hi, hs, (Option.some.inj hv).symm⟩
      · rw [if_neg hs] at hv
        cases hv
    · rw [if_neg hi] at hv
      cases hv
  constructor
  · refine ⟨?_, ?_, ⟨0, ?_, ?_⟩, ?_, ?_, ?_⟩
    · rw [List.length_map, List.length_range]
    · intro p hp
      exact List.mem_range.mp (List.mem_of_mem_filter hp)
    · refine ⟨(List.range (w * h)).filter (isSrc mask fromTrue), [],
        (List.append_nil _).symm, ?_, fun i hi => absurd hi (List.not_mem_nil i)⟩
      intro p hp
      have hpi := List.mem_range.mp (List.mem_of_mem_filter hp)
      have hps := List.of_mem_filter hp
      rw [getD_init, if_pos hpi, if_pos hps]
    · intro i v hv
      obtain ⟨_, _, hv0⟩ := hread i v hv
      omega
    · intro j hj hsj
      rw [getD_init, if_pos hj, if_pos hsj]
    · intro i v hv
      obtain ⟨hi, hs, _⟩ := hread i v hv
      exact ⟨i, hi, hs, by rw [manhattan_self]; exact Nat.zero_le v⟩
    · intro i v hv z hz hznn
      obtain ⟨hi, hs, _⟩ := hread i v hv
      right
      exact List.mem_filter.mpr ⟨List.mem_range.mpr hi, hs⟩
  · have hmap : countNone ((List.range (w * h)).map
        (fun i => if isSrc mask fromTrue i then some 0 else none)) =
        (List.range (w * h)).countP (fun i => !(isSrc mask fromTrue i)) := by
      unfold countNone
      rw [List.countP_map]
      refine List.countP_congr ?_
      intro i _
      by_cases hs : isSrc mask fromTrue i
      · simp [hs]
      · simp [hs]
    rw [hmap, ← List.countP_eq_length_filter]
    have := countP_add_countP_not (isSrc mask fromTrue) (List.range (w * h))
    rw [List.length_range] at this
    omega

/-- A drained BFS field equals the spec's minimum-hop distance at every
in-range cell (by strong induction on the true distance, using stability,
soundness and the step-toward-source geometry). -/
theorem bfsFinal_eq (mask : List Bool) (w h : ℕ) (fromTrue : Bool)
    (dist : List (Option ℕ)) (hf : BfsFinal mask w h fromTrue dist) :
    ∀ i, i < w * h → dist.getD i none = specMinDist mask w h fromTrue i := by
  obtain ⟨hlen, hsrc0, hsound, hstab⟩ := hf
  have hmem_of : ∀ i dv, specMinDist mask w h fromTrue i = some dv →
      (∃ j, j < w * h ∧ isSrc mask fromTrue j = true ∧
        manhattan w i j = dv) ∧
      ∀ j, j < w * h → isSrc mask fromTrue j = true →
        dv ≤ manhattan w i j := by
    intro i dv hD
    unfold specMinDist at hD
    obtain ⟨hmem, hle⟩ := List.min?_eq_some_iff'.mp hD
    constructor
    · obtain ⟨j, hj, hman⟩ := List.mem_map.mp hmem
      have hjr := List.mem_range.mp (List.mem_of_mem_filter hj)
      exact ⟨j, hjr, List.of_mem_filter hj, hman⟩
    · intro j hjr hjs
      exact hle _ (List.mem_map_of_mem _ (List.mem_filter.mpr
        ⟨List.mem_range.mpr hjr, hjs⟩))
  have key : ∀ dv i, i < w * h → specMinDist mask w h fromTrue i = some dv →
      dist.getD i none = some dv := by
    intro dv
    induction dv using Nat.strong_induction_on with
    | _ dv ih =>
      intro i hi hD
      obtain ⟨⟨j, hj, hjs, hjman⟩, hmin⟩ := hmem_of i dv hD
      by_cases h0 : dv = 0
      · subst h0
        have hij : i = j := manhattan_eq_zero hi hj hjman
        rw [hij]
        exact hsrc0 j hj hjs
      · have hne : manhattan w i j ≠ 0 := by
          rw [hjman]
          exact h0
        obtain ⟨z, hz, hznn, hzlt, hz1⟩ := exists_nbr_closer hi hj hne
        have hnD : specMinDist mask w h fromTrue z.toNat = some (dv - 1) := by
          unfold specMinDist
          refine List.min?_eq_some_iff'.mpr ⟨?_, ?_⟩
          · refine List.mem_map.mpr ⟨j, List.mem_filter.mpr
              ⟨List.mem_range.mpr hj, hjs⟩, ?_⟩
            omega
          · intro b hb
            obtain ⟨j2, hj2, hj2man⟩ := List.mem_map.mp hb
            have hj2r := List.mem_range.mp (List.mem_of_mem_filter hj2)
            have hj2s := List.of_mem_filter hj2
            have hmin2 := hmin j2 hj2r hj2s
            have hlip := (manhattan_nbr_le hi hz hznn j2).2
            omega
        have hlabn := ih (dv - 1) (by omega) z.toNat hzlt hnD
        have hsymm := nbr_symm hi hz hznn
        obtain ⟨u, hu, hule⟩ := hstab z.toNat (dv - 1) hlabn (i : ℤ) hsymm
          (by omega)
        have hcast : ((i : ℤ)).toNat = i := by omega
        rw [hcast] at hu
        obtain ⟨j3, hj3, hj3s, hj3man⟩ := hsound i u hu
        have hmin3 := hmin j3 hj3 hj3s
        have huv : u = dv := by omega
        rw [hu, huv]
  intro i hi
  cases hD : specMinDist mask w h fromTrue i with
  | some dv => exact key dv i hi hD
  | none =>
    unfold specMinDist at hD
    have hempty := List.min?_eq_none_iff.mp hD
    have hfe : (List.range (w * h)).filter (isSrc mask fromTrue) = [] :=
      List.map_eq_nil.mp hempty
    cases hv : dist.getD i none with
    | none => rfl
    | some v =>
      obtain ⟨j, hj, hjs, _⟩ := hsound i v hv
      have hjm : j ∈ (List.range (w * h)).filter (isSrc mask fromTrue) :=
        List.mem_filter.mpr ⟨List.mem_range.mpr hj, hjs⟩
      rw [hfe] at hjm
      cases hjm

/-- C4: for every mask, dimensions and target value, `computeDistanceField`
computes, at every in-range cell, exactly the spec's distance: `some 0` at
cells matching the target, the minimum number of 4-connected hops to the
nearest matching cell elsewhere, and the `Infinity` sentinel (`none`)
exactly when no matching cell exists — in particular an all-`true` mask with
target `false` leaves every cell unreached, since `specMinDist` is then the
minimum of an empty list. -/
theorem claim_C4_distance_field (mask : List Bool) (w h : ℕ) (fromTrue : Bool)
    (i : ℕ) (hi : i < w * h) :
    (computeDistanceField mask w h fromTrue).getD i none =
      specMinDist mask w h fromTrue i := by
  obtain ⟨hinv, hcnt⟩ := bfsInit mask w h fromTrue
  have hfuel : countNone ((List.range (w * h)).map
      (fun i => if isSrc mask fromTrue i then some 0 else none)) +
      ((List.range (w * h)).filter (isSrc mask fromTrue)).length <
      bfsFuel w h := by
    rw [hcnt]
    unfold bfsFuel
    omega
  have hfin := bfsLoop_final mask w h fromTrue (bfsFuel w h) _ _ hinv hfuel
  have heq : computeDistanceField mask w h fromTrue =
      bfsLoop w h (bfsFuel w h)
        ((List.range (w * h)).map
          (fun i => if isSrc mask fromTrue i then some 0 else none))
        ((List.range (w * h)).filter (isSrc mask fromTrue)) := rfl
  rw [heq]
  exact bfsFinal_eq mask w h fromTrue _ hfin i hi

/-- C4 witness: the theorem applied to the mask `[true, false]` on a 2×1
grid with target `true`, at cell 1. -/
theorem claim_C4_distance_field_witness :
    1 < 2 * 1 ∧
      (computeDistanceField [true, false] 2 1 true).getD 1 none =
        specMinDist [true, false] 2 1 true 1 :=
  ⟨by decide, claim_C4_distance_field [true, false] 2 1 true 1 (by decide)⟩

end Dotmaps
